import Mathlib

/-!
Verification of the IPv4 fragment reassembly engine in
`src/datapath/linux/compat/ip_fragment.c`.

The stateful C functions `ip_frag_too_far`, `ip_frag_reinit`,
`ip_frag_queue` and `ip_frag_reasm` are embedded as pure Lean functions
over an explicit queue state (`Ipq`).  Machine integers that are `int`
in the C are modelled as `Int`; unsigned fields (`u16 max_size`,
`u16 max_df_size`, `unsigned int rid`, `u8 ecn`) are modelled as `Nat`
with explicit reductions modulo `2^16` / `2^32` where the C stores can
truncate.  Fragment payloads are byte lists; socket-buffer memory
management (`kfree_skb`, truesize accounting, reference counts) and the
hash index are outside the queue-mutation logic the claims are about and
are not part of the state.
-/

/-- `-ENOENT` magnitude (queue already complete / dead). -/
def ENOENT : Int := 2

/-- `-EINVAL` magnitude (corrupted or conflicting fragment). -/
def EINVAL : Int := 22

/-- `-E2BIG` magnitude (reassembled datagram over 65535 bytes). -/
def E2BIG : Int := 7

/-- `-ETIMEDOUT` magnitude (too-far reinitialization lost the timer race). -/
def ETIMEDOUT : Int := 110

/-- The `INET_FRAG_*` flag bits of `inet_frag_queue.flags`, as a record of
booleans (`FIRST_IN`, `LAST_IN`, `COMPLETE`, `EVICTED`). -/
structure FragFlags where
  first_in : Bool
  last_in : Bool
  complete : Bool
  evicted : Bool
  deriving DecidableEq, Repr

/-- One fragment record held in a queue: its datagram offset
(`FRAG_CB(skb)->offset`), the IP header length of the original fragment
(still present in front of the pulled data, read again by
`ip_frag_reasm` for the head), and the payload bytes. -/
structure FragRecord where
  offset : Int
  ihl : Nat
  payload : List Nat
  deriving DecidableEq, Repr

/-- The mutable per-datagram state: `struct ipq` together with the
`inet_frag_queue` fields that `ip_fragment.c` reads and writes
(`flags`, `len`, `meat`, `fragments`, `max_size`) plus the `ipq` fields
`max_df_size`, `ecn`, `iif` and `rid`. -/
structure Ipq where
  flags : FragFlags
  len : Int
  meat : Int
  fragments : List FragRecord
  max_size : Nat
  max_df_size : Nat
  ecn : Nat
  iif : Int
  rid : Nat
  deriving DecidableEq, Repr

/-- An incoming fragment as `ip_frag_queue` sees it: the 13-bit wire
fragment-offset field (units of 8 bytes, already masked with
`IP_OFFSET`), the MF and DF bits of `frag_off`, the TOS byte, the IP
header length, the payload bytes after the header, the arrival device
index, and the `IPSKB_FRAG_COMPLETE` control-block flag. -/
structure Skb where
  wireFragOff : Nat
  mf : Bool
  df : Bool
  tos : Nat
  ihl : Nat
  payload : List Nat
  dev : Option Int
  frag_complete : Bool
  deriving DecidableEq, Repr

/-- `ip4_frag_ecn`: `1 << (tos & INET_ECN_MASK)`. -/
def ip4_frag_ecn (tos : Nat) : Nat := 1 <<< (tos % 4)

/-- Absolute start of a fragment in the datagram: `offset <<= 3`. -/
def skbStart (f : Skb) : Int := 8 * (f.wireFragOff : Int)

/-- Absolute end of a fragment before any 8-byte truncation:
`end = offset + skb->len - skb_network_offset(skb) - ihl`. -/
def skbEnd (f : Skb) : Int := skbStart f + (f.payload.length : Int)

/-- Reduce to a 32-bit unsigned value. -/
def u32 (n : Nat) : Nat := n % 4294967296

/-- 32-bit unsigned subtraction `a - b` (as in `end - start` on
`unsigned int` counters). -/
def u32sub (a b : Nat) : Nat := (a + 4294967296 - u32 b) % 4294967296

/-- `ip_frag_too_far`: bump the peer's reassembly-attempt counter, record
it in `qp->rid`, and report whether the queue holds fragments while the
counter moved more than `max` since the previous snapshot.  The peer
counter is threaded explicitly (`none` models a queue with no associated
`inet_peer`).  Returns the updated queue, the updated peer counter and
the heuristic's verdict. -/
def ip_frag_too_far (max_dist : Nat) (qp : Ipq) (peer : Option Nat) :
    Ipq × Option Nat × Bool :=
  match peer with
  | none => (qp, none, false)
  | some prid =>
    if max_dist = 0 then (qp, some prid, false)
    else
      let start := qp.rid
      let e := u32 (prid + 1)
      let qp1 := { qp with rid := e }
      (qp1, some e,
        (!qp1.fragments.isEmpty) && decide (u32sub e start > max_dist))

/-- `ip_frag_reinit`: if the expiry timer can be re-armed, drop all held
fragments and reset `flags`, `len`, `meat`, `fragments`, `iif` and
`ecn`; `max_size`, `max_df_size` and `rid` are left untouched.  If the
timer is already firing (`mod_timer` returned 0) the queue is left as it
was and `-ETIMEDOUT` is reported. -/
def ip_frag_reinit (timer_ok : Bool) (qp : Ipq) : Except Int Ipq :=
  if timer_ok then
    .ok { qp with flags := ⟨false, false, false, false⟩, len := 0, meat := 0,
                  fragments := [], iif := 0, ecn := 0 }
  else .error (-ETIMEDOUT)

/-- Modelled from the spec: the ECN reassembly validation table
`ip_frag_ecn_table` lives in shared inet-fragment infrastructure outside
this repository.  Per spec section 4.3 step 1, the union of observed ECN
codepoints is validated against the allowed-combination table and a
union mixing Not-ECT with CE (or any Not-ECT/ECT mix) is a hard
reassembly failure (`0xff`); a union containing CE with only ECT
codepoints yields CE (`INET_ECN_CE = 3`).  Index bits: 1 = Not-ECT,
2 = ECT(1), 4 = ECT(0), 8 = CE. -/
def ip_frag_ecn_table (u : Nat) : Nat :=
  [0, 0, 0, 255, 0, 255, 0, 255, 0, 255, 3, 255, 3, 255, 3, 255].getD u 255

/-- The reassembled datagram as `ip_frag_reasm` hands it back: header
template length, recomputed total length, the ECN codepoint OR-ed into
the header TOS, the DF bit decision, `IPCB->frag_max_size`, and the
datagram body (the fragment payloads glued in list order). -/
structure Datagram where
  ihl : Nat
  tot_len : Int
  ecn : Nat
  df : Bool
  frag_max_size : Nat
  body : List Nat
  deriving DecidableEq, Repr

/-- `ipq_kill`: mark the queue complete/dead (`inet_frag_kill` sets
`INET_FRAG_COMPLETE` and unhashes the queue). -/
def ipqKill (qp : Ipq) : Ipq :=
  { qp with flags := { qp.flags with complete := true } }

/-- `ip_frag_reasm`: kill the queue, validate the ECN union, check the
65535-byte ceiling on `ihl + qp->q.len`, and glue the fragment payloads
in list order behind the head fragment's header.  The empty-fragments
case cannot be reached from `ip_frag_queue` (the C would dereference a
null `head` there); the model reports `-EINVAL`.  On success the
fragment list is detached into the output datagram. -/
def ip_frag_reasm (qp : Ipq) : Ipq × Except Int Datagram :=
  let qpk := ipqKill qp
  match qp.fragments with
  | [] => (qpk, .error (-EINVAL))
  | hd :: rest =>
    let ecn := ip_frag_ecn_table qp.ecn
    if ecn = 255 then (qpk, .error (-EINVAL))
    else
      let ihlen := hd.ihl
      let len : Int := (ihlen : Int) + qp.len
      if len > 65535 then (qpk, .error (-E2BIG))
      else
        ({ qpk with fragments := [] },
         .ok { ihl := ihlen, tot_len := len, ecn := ecn,
               df := decide (qp.max_df_size = qp.max_size),
               frag_max_size := max qp.max_df_size qp.max_size,
               body := (hd :: rest).flatMap (·.payload) })

/-- Outcome of the fragment-insertion part of `ip_frag_queue` (everything
before the completion check at line 593): either the fragment was linked
into the chain (`ok`, carrying the mutated queue), or the `goto err`
path freed it (`fail`, carrying the queue — which some reject paths have
already partially mutated — and the error code). -/
inductive InsertOutcome where
  | ok (qp : Ipq)
  | fail (qp : Ipq) (code : Int)
  deriving DecidableEq, Repr

/-- The queue state carried by an insertion outcome. -/
def InsertOutcome.queue : InsertOutcome → Ipq
  | .ok q => q
  | .fail q _ => q

/-- The overlap loop over the successors of the insertion point
(`while (next && FRAG_CB(next)->offset < end)`): eat the head of a
partially overlapped successor and stop, or drop fully consumed
successors, discounting `meat` by the removed bytes. -/
def trimSucc (e : Int) : List FragRecord → Int → List FragRecord × Int
  | [], meat => ([], meat)
  | nxt :: rest, meat =>
    if nxt.offset < e then
      let i := e - nxt.offset
      if i < (nxt.payload.length : Int) then
        ({ nxt with offset := nxt.offset + i,
                    payload := nxt.payload.drop i.toNat } :: rest,
         meat - i)
      else trimSucc e rest (meat - (nxt.payload.length : Int))
    else (nxt :: rest, meat)

/-- Locate the insertion point: the C first compares against
`fragments_tail` and appends if the new offset is strictly past it,
otherwise walks the chain from the head collecting every record whose
offset is strictly below the new offset.  Returns the records in front
of the new fragment and the remaining records. -/
def findSpot (frags : List FragRecord) (offset : Int) :
    List FragRecord × List FragRecord :=
  match frags.getLast? with
  | none => ([], [])
  | some tl =>
    if tl.offset < offset then (frags, [])
    else (frags.takeWhile (fun f => decide (f.offset < offset)),
          frags.dropWhile (fun f => decide (f.offset < offset)))

/-- Lines 526-591 of `ip_frag_queue`, after the predecessor overlap has
been resolved (the fragment now occupies `[offset1, e)` with bytes
`payload1`): run the successor overlap loop, splice the record in
between `bef` and the surviving successors, and update `iif`, `meat`,
the ECN union, `FIRST_IN`, `max_size` and `max_df_size` (both `u16`
stores). -/
def linkFragment (qp : Ipq) (skb : Skb) (e offset1 : Int)
    (bef aft : List FragRecord) (payload1 : List Nat) : InsertOutcome :=
  let ta := trimSucc e aft qp.meat
  let newRec : FragRecord := ⟨offset1, skb.ihl, payload1⟩
  let fragsize := payload1.length + skb.ihl
  .ok { qp with
    fragments := bef ++ newRec :: ta.1,
    iif := skb.dev.getD qp.iif,
    meat := ta.2 + (payload1.length : Int),
    ecn := qp.ecn ||| ip4_frag_ecn skb.tos,
    flags := if offset1 = 0 then { qp.flags with first_in := true }
             else qp.flags,
    max_size := if fragsize > qp.max_size then fragsize % 65536
                else qp.max_size,
    max_df_size := if skb.df && decide (fragsize > qp.max_df_size)
                   then fragsize % 65536 else qp.max_df_size }

/-- The body of `ip_frag_queue` from the zero-length check (line 478)
through linking the fragment and updating the size maxima (line 591):
trim the payload to `end - offset`, resolve the overlap with the
predecessor (advancing `offset` and rejecting if the range collapses),
then link via `linkFragment`. -/
def insertCore2 (qp : Ipq) (skb : Skb) (offset e : Int) : InsertOutcome :=
  if e = offset then .fail qp (-EINVAL)
  else
    let payload0 := skb.payload.take (e - offset).toNat
    let spot := findSpot qp.fragments offset
    match (spot.1).getLast? with
    | some p =>
      let i := p.offset + (p.payload.length : Int) - offset
      if i > 0 then
        if e ≤ offset + i then .fail qp (-EINVAL)
        else linkFragment qp skb e (offset + i) spot.1 spot.2 (payload0.drop i.toNat)
      else linkFragment qp skb e offset spot.1 spot.2 payload0
    | none => linkFragment qp skb e offset spot.1 spot.2 payload0

/-- The length-consistency part of `ip_frag_queue` (lines 444-477): for a
final fragment reject conflicting total-length declarations, otherwise
set `LAST_IN` and `len`; for a non-final fragment truncate `end` to the
8-byte boundary and reject data beyond a declared end. -/
def insertCore (qp : Ipq) (skb : Skb) : InsertOutcome :=
  let offset : Int := skbStart skb
  let e0 : Int := skbEnd skb
  if skb.mf = false then
    if e0 < qp.len ∨ (qp.flags.last_in = true ∧ e0 ≠ qp.len) then
      .fail qp (-EINVAL)
    else
      insertCore2
        { qp with flags := { qp.flags with last_in := true }, len := e0 }
        skb offset e0
  else
    let e1 := e0 - e0 % 8
    if e1 > qp.len then
      if qp.flags.last_in then .fail qp (-EINVAL)
      else insertCore2 { qp with len := e1 } skb offset e1
    else insertCore2 qp skb offset e1

/-- `ip_frag_queue` up to (not including) the completion check: the
already-complete guard, the too-far heuristic with in-place
reinitialization (killing the queue when the timer race is lost), then
the insertion proper. -/
def ip_frag_queue_insert (max_dist : Nat) (timer_ok : Bool)
    (qp : Ipq) (peer : Option Nat) (skb : Skb) : Option Nat × InsertOutcome :=
  if qp.flags.complete then (peer, .fail qp (-ENOENT))
  else
    let tf := if skb.frag_complete then (qp, peer, false)
              else ip_frag_too_far max_dist qp peer
    let qp1 := tf.1
    let peer1 := tf.2.1
    if tf.2.2 then
      match ip_frag_reinit timer_ok qp1 with
      | .error c => (peer1, .fail (ipqKill qp1) c)
      | .ok qp2 => (peer1, insertCore qp2 skb)
    else (peer1, insertCore qp1 skb)

/-- Queue state together with the (optional) peer reassembly counter the
queue's `inet_peer` shares across queues from the same source. -/
structure FragState where
  qp : Ipq
  peer : Option Nat
  deriving DecidableEq, Repr

deriving instance DecidableEq for Except

/-- The caller-visible result of one `ip_frag_queue` call: the Gluing
Engine was invoked and returned `r` (line 598 `return ip_frag_reasm`),
or `-EINPROGRESS` (pending), or a `goto err` rejection. -/
inductive FragResult where
  | glued (r : Except Int Datagram)
  | pending
  | rejected (code : Int)
  deriving DecidableEq, Repr

/-- `INET_FRAG_FIRST_IN | INET_FRAG_LAST_IN`, the exact flag word the
completion check compares against. -/
def completionFlags : FragFlags := ⟨true, true, false, false⟩

/-- Full `ip_frag_queue`: insert, then if the flag word equals
`FIRST_IN | LAST_IN` and `meat == len`, invoke the Gluing Engine and
return its result; otherwise report pending. -/
def ip_frag_queue (max_dist : Nat) (timer_ok : Bool) (s : FragState)
    (skb : Skb) : FragState × FragResult :=
  match ip_frag_queue_insert max_dist timer_ok s.qp s.peer skb with
  | (p, .fail q c) => (⟨q, p⟩, .rejected c)
  | (p, .ok q) =>
    if q.flags = completionFlags ∧ q.meat = q.len then
      let r := ip_frag_reasm q
      (⟨r.1, p⟩, .glued r.2)
    else (⟨q, p⟩, .pending)

/-- `ip4_frag_init` on a zeroed allocation: a fresh queue for a key,
seeded with the creating fragment's ECN codepoint. -/
def ip4_frag_init (tos : Nat) : Ipq :=
  { flags := ⟨false, false, false, false⟩, len := 0, meat := 0,
    fragments := [], max_size := 0, max_df_size := 0,
    ecn := ip4_frag_ecn tos, iif := 0, rid := 0 }

/-- Feed a list of fragments one by one through `ip_frag_queue`,
collecting the per-call results. -/
def insertResults (max_dist : Nat) (timer_ok : Bool) :
    FragState → List Skb → List FragResult
  | _, [] => []
  | s, f :: rest =>
    match ip_frag_queue max_dist timer_ok s f with
    | (s', r) => r :: insertResults max_dist timer_ok s' rest

/-- Feed a list of fragments through `ip_frag_queue`, returning the final
state. -/
def runInserts (max_dist : Nat) (timer_ok : Bool) :
    FragState → List Skb → FragState
  | s, [] => s
  | s, f :: rest =>
    runInserts max_dist timer_ok (ip_frag_queue max_dist timer_ok s f).1 rest

/-- The record a fragment is stored as when no trimming touches it. -/
def toRecord (f : Skb) : FragRecord := ⟨skbStart f, f.ihl, f.payload⟩

/-- Order on fragment records by datagram offset. -/
def recLe (a b : FragRecord) : Prop := a.offset ≤ b.offset

/-- Strict order on fragment records by datagram offset. -/
def recLt (a b : FragRecord) : Prop := a.offset < b.offset

/-- Separation: `a`'s byte range ends at or before `b`'s begins. -/
def recSep (a b : FragRecord) : Prop :=
  a.offset + (a.payload.length : Int) ≤ b.offset

instance : DecidableRel recLe :=
  fun a b => inferInstanceAs (Decidable (a.offset ≤ b.offset))

instance : DecidableRel recLt :=
  fun a b => inferInstanceAs (Decidable (a.offset < b.offset))

instance : DecidableRel recSep :=
  fun a b =>
    inferInstanceAs (Decidable (a.offset + (a.payload.length : Int) ≤ b.offset))

instance : IsTotal FragRecord recLe := ⟨fun a b => Int.le_total a.offset b.offset⟩

instance : IsTrans FragRecord recLe := ⟨fun _ _ _ h1 h2 => le_trans h1 h2⟩

instance : IsAntisymm FragRecord recLt :=
  ⟨fun _ _ h1 h2 => absurd (lt_trans h1 h2) (lt_irrefl _)⟩

/-- The fragment payloads concatenated in offset order — the body the
spec demands of a reassembled datagram. -/
def offsetOrderedConcat (S : List Skb) : List Nat :=
  ((S.map toRecord).insertionSort recLe).flatMap (·.payload)

/-- `skb->len + ihl`, the fragment size fed into the `max_size` /
`max_df_size` maxima (for an untrimmed fragment). -/
def fragsizeOf (f : Skb) : Nat := f.payload.length + f.ihl

/-- Union of the ECN codepoints of a list of fragments. -/
def ecnAll (S : List Skb) : Nat :=
  S.foldr (fun f a => ip4_frag_ecn f.tos ||| a) 0

/-- The queue's structural invariant: the fragment chain holds pairwise
separated (hence offset-sorted, duplicate-free) nonempty records and
`meat` is the total of the held bytes. -/
def WF (qp : Ipq) : Prop :=
  qp.fragments.Pairwise recSep ∧
  (∀ f ∈ qp.fragments, f.payload ≠ []) ∧
  qp.meat = (qp.fragments.map (fun f => (f.payload.length : Int))).sum

instance (qp : Ipq) : Decidable (WF qp) := by
  unfold WF; infer_instance

/-- A valid fragment set for total length `total`: nonempty fragments,
exactly one final fragment which declares `total`, 8-byte-aligned
non-final fragments, a fragment at offset 0, pairwise disjoint ranges
inside `[0, total)` whose lengths add up to `total` (an exact cover),
legal per-fragment sizes, a reassembled size within the 65535 ceiling,
and a conflict-free ECN union. -/
structure ValidSet (S : List Skb) (total : Int) : Prop where
  nonempty_payloads : ∀ f ∈ S, f.payload ≠ []
  final_total : ∀ f ∈ S, f.mf = false → skbEnd f = total
  one_final : S.countP (fun f => !f.mf) = 1
  mf_aligned : ∀ f ∈ S, f.mf = true → skbEnd f % 8 = 0
  has_zero : ∃ f ∈ S, skbStart f = 0
  disjoint : S.Pairwise (fun a b => skbEnd a ≤ skbStart b ∨ skbEnd b ≤ skbStart a)
  covers : (S.map (fun f => (f.payload.length : Int))).sum = total
  ends_le : ∀ f ∈ S, skbEnd f ≤ total
  sizes_ok : ∀ f ∈ S, fragsizeOf f ≤ 65535
  head_fits : ∀ f ∈ S, skbStart f = 0 → (f.ihl : Int) + total ≤ 65535
  ecn_ok : ip_frag_ecn_table (ecnAll S) ≠ 255

/-! ### Helper lemmas on the insertion prelude -/

/-- With no associated peer the too-far prelude of `ip_frag_queue` is a
no-op, whatever the configured maximum and whatever the skb flags. -/
theorem prelude_no_peer (md : Nat) (qp : Ipq) (skb : Skb) :
    (if skb.frag_complete then (qp, (none : Option Nat), false)
     else ip_frag_too_far md qp none) = (qp, none, false) := by
  cases skb.frag_complete <;> simp [ip_frag_too_far]

/-- With no peer, `ip_frag_queue_insert` on a live queue is just
`insertCore`. -/
theorem insert_no_peer (md : Nat) (tk : Bool) (qp : Ipq) (skb : Skb)
    (hc : qp.flags.complete = false) :
    ip_frag_queue_insert md tk qp none skb = (none, insertCore qp skb) := by
  unfold ip_frag_queue_insert
  rw [if_neg (by simp [hc])]
  rw [prelude_no_peer]
  simp

/-! ### C9 — a rejected zero-length final fragment still mutates the queue -/

/-- C9: inserting a final fragment (`MF` clear) with an empty byte range
whose declared end passes the length-consistency checks is rejected with
`-EINVAL` (the fragment is freed), yet the queue's `LAST_IN` flag has
been set and its total length updated to that fragment's end before the
rejection. -/
theorem c9_zero_length_final_mutates
    (md : Nat) (tk : Bool) (s : FragState) (skb : Skb)
    (hpeer : s.peer = none)
    (hc : s.qp.flags.complete = false)
    (hmf : skb.mf = false)
    (hpl : skb.payload = [])
    (hlo : ¬ skbEnd skb < s.qp.len)
    (hconf : ¬ (s.qp.flags.last_in = true ∧ skbEnd skb ≠ s.qp.len)) :
    ip_frag_queue md tk s skb =
      (⟨{ s.qp with flags := { s.qp.flags with last_in := true },
                    len := skbEnd skb }, none⟩,
       .rejected (-EINVAL)) := by
  have hee : skbEnd skb = skbStart skb := by simp [skbEnd, hpl]
  have hins : insertCore s.qp skb =
      .fail { s.qp with flags := { s.qp.flags with last_in := true },
                        len := skbEnd skb } (-EINVAL) := by
    unfold insertCore
    rw [if_pos hmf, if_neg (fun h => h.elim hlo hconf)]
    unfold insertCore2
    rw [if_pos hee]
  unfold ip_frag_queue
  rw [hpeer] at *
  rw [insert_no_peer md tk s.qp skb hc, hins]

/-- Witness for C9 at a concrete queue and fragment. -/
theorem c9_zero_length_final_mutates_witness :
    ip_frag_queue 64 true
      ⟨{ flags := ⟨true, false, false, false⟩, len := 16, meat := 8,
         fragments := [⟨0, 20, [1, 2, 3, 4, 5, 6, 7, 8]⟩], max_size := 28,
         max_df_size := 0, ecn := 1, iif := 0, rid := 0 }, none⟩
      ⟨3, false, false, 0, 20, [], none, false⟩ =
    (⟨{ flags := ⟨true, true, false, false⟩, len := 24, meat := 8,
        fragments := [⟨0, 20, [1, 2, 3, 4, 5, 6, 7, 8]⟩], max_size := 28,
        max_df_size := 0, ecn := 1, iif := 0, rid := 0 }, none⟩,
     .rejected (-EINVAL)) := by
  exact c9_zero_length_final_mutates 64 true _ _ rfl rfl rfl rfl
    (by decide) (by decide)

/-! ### C10 — too-far reinitialization frame -/

/-- A queue as it might stand before a too-far reinitialization: one
held fragment, and size maxima 100/100 recorded from fragments seen
earlier. -/
def exPreReinitQ : Ipq :=
  { flags := ⟨true, false, false, false⟩, len := 0, meat := 3,
    fragments := [⟨0, 20, [9, 9, 9]⟩], max_size := 100, max_df_size := 100,
    ecn := 1, iif := 5, rid := 7 }

/-- A small non-DF offset-0 fragment (size 28). -/
def exReinitF1 : Skb := ⟨0, true, false, 0, 20, [1, 2, 3, 4, 5, 6, 7, 8], none, false⟩

/-- A small non-DF final fragment ending at 16 (size 28). -/
def exReinitF2 : Skb := ⟨1, false, false, 0, 20, [9, 10, 11, 12, 13, 14, 15, 16], none, false⟩

/-- The concrete queue `exPreReinitQ` after reinitialization. -/
def exPostReinitQ : Ipq :=
  { flags := ⟨false, false, false, false⟩, len := 0, meat := 0,
    fragments := [], max_size := 100, max_df_size := 100, ecn := 0,
    iif := 0, rid := 7 }

/-- C10: a successful too-far reinitialization resets `flags`,
`total_len`, `received_len`, the fragment list, the incoming interface
and the ECN union, but leaves `max_fragment_size`, `max_df_fragment_size`
and the `rid` snapshot unchanged; consequently (last conjunct, at a
concrete queue) a datagram glued after reinitialization from fragments
none of which carried DF still comes out with DF set, because the
pre-reinitialization size maxima 100 = 100 decide the DF bit. -/
theorem c10_reinit_frame (tk : Bool) (qp q' : Ipq)
    (h : ip_frag_reinit tk qp = .ok q') :
    (q'.max_size = qp.max_size ∧ q'.max_df_size = qp.max_df_size ∧
     q'.rid = qp.rid) ∧
    (q'.flags = ⟨false, false, false, false⟩ ∧ q'.len = 0 ∧ q'.meat = 0 ∧
     q'.fragments = [] ∧ q'.iif = 0 ∧ q'.ecn = 0) ∧
    (∃ qr d, ip_frag_reinit true exPreReinitQ = .ok qr ∧
       insertResults 0 true ⟨qr, none⟩ [exReinitF1, exReinitF2] =
         [.pending, .glued (.ok d)] ∧
       d.df = true ∧ exReinitF1.df = false ∧ exReinitF2.df = false ∧
       exPreReinitQ.max_df_size = 100 ∧ exPreReinitQ.max_size = 100) := by
  unfold ip_frag_reinit at h
  split at h
  · injection h with h
    subst h
    refine ⟨⟨rfl, rfl, rfl⟩, ⟨rfl, rfl, rfl, rfl, rfl, rfl⟩, ?_⟩
    exact ⟨exPostReinitQ, ⟨20, 36, 0, true, 100,
      [1, 2, 3, 4, 5, 6, 7, 8, 9, 10, 11, 12, 13, 14, 15, 16]⟩,
      by decide⟩
  · exact absurd h (by simp)

/-- Witness for C10 at the concrete pre-reinitialization queue. -/
theorem c10_reinit_frame_witness :
    exPostReinitQ.max_size = exPreReinitQ.max_size ∧
    exPostReinitQ.max_df_size = exPreReinitQ.max_df_size ∧
    exPostReinitQ.rid = exPreReinitQ.rid ∧ exPostReinitQ.fragments = [] := by
  have h := c10_reinit_frame true exPreReinitQ exPostReinitQ (by rfl)
  exact ⟨h.1.1, h.1.2.1, h.1.2.2, h.2.1.2.2.2.1⟩

/-! ### C2 — conflicting total-length declarations -/

/-- C2 (amended): a final fragment whose declared end is below the
recorded total length, or that contradicts an earlier `LAST_IN`
declaration, is rejected with `-EINVAL` and freed, and the queue
survives completely unchanged — in particular it is not killed. -/
theorem c2_conflicting_length_rejected_queue_survives
    (md : Nat) (tk : Bool) (s : FragState) (skb : Skb)
    (hpeer : s.peer = none) (hc : s.qp.flags.complete = false)
    (hmf : skb.mf = false)
    (hconf : skbEnd skb < s.qp.len ∨
             (s.qp.flags.last_in = true ∧ skbEnd skb ≠ s.qp.len)) :
    ip_frag_queue md tk s skb = (⟨s.qp, none⟩, .rejected (-EINVAL)) := by
  have hins : insertCore s.qp skb = .fail s.qp (-EINVAL) := by
    unfold insertCore
    rw [if_pos hmf, if_pos hconf]
  unfold ip_frag_queue
  rw [hpeer] at *
  rw [insert_no_peer md tk s.qp skb hc, hins]

/-- Witness for C2 (amended) at a concrete queue and fragment. -/
theorem c2_conflicting_length_witness :
    ip_frag_queue 64 true
      ⟨{ flags := ⟨false, true, false, false⟩, len := 16, meat := 8,
         fragments := [⟨8, 20, [5, 5, 5, 5, 5, 5, 5, 5]⟩], max_size := 28,
         max_df_size := 0, ecn := 1, iif := 0, rid := 0 }, none⟩
      ⟨2, false, false, 0, 20, [7, 7, 7, 7, 7, 7, 7, 7], none, false⟩ =
    (⟨{ flags := ⟨false, true, false, false⟩, len := 16, meat := 8,
        fragments := [⟨8, 20, [5, 5, 5, 5, 5, 5, 5, 5]⟩], max_size := 28,
        max_df_size := 0, ecn := 1, iif := 0, rid := 0 }, none⟩,
     .rejected (-EINVAL)) := by
  exact c2_conflicting_length_rejected_queue_survives 64 true _ _ rfl rfl rfl
    (Or.inr (by decide))

/-- A queue that has already recorded a final fragment: `LAST_IN` set,
total length 16, holding the fragment `[8, 16)`. -/
def exConfQ : Ipq :=
  { flags := ⟨false, true, false, false⟩, len := 16, meat := 8,
    fragments := [⟨8, 20, [5, 5, 5, 5, 5, 5, 5, 5]⟩], max_size := 28,
    max_df_size := 0, ecn := 1, iif := 0, rid := 0 }

/-- A second final fragment declaring a different end (24 instead of 16). -/
def exConfFinal : Skb := ⟨2, false, false, 0, 20, [7, 7, 7, 7, 7, 7, 7, 7], none, false⟩

/-- The missing offset-0 fragment completing `exConfQ`. -/
def exConfFill : Skb := ⟨0, true, false, 0, 20, [1, 2, 3, 4, 5, 6, 7, 8], none, false⟩

/-- Counterexample to C2 as stated: after a conflicting final fragment is
rejected, the queue is NOT killed (its `COMPLETE` flag is still clear and
its state is unchanged), and a datagram IS subsequently produced from
this key — inserting the missing fragment completes reassembly at the
first declared length. -/
theorem c2_counterexample :
    ip_frag_queue 64 true ⟨exConfQ, none⟩ exConfFinal =
      (⟨exConfQ, none⟩, .rejected (-EINVAL)) ∧
    exConfQ.flags.complete = false ∧
    (ip_frag_queue 64 true ⟨exConfQ, none⟩ exConfFill).2 =
      .glued (.ok ⟨20, 36, 0, false, 28,
        [1, 2, 3, 4, 5, 6, 7, 8, 5, 5, 5, 5, 5, 5, 5, 5]⟩) := by decide

/-! ### C7 — the 65535-byte ceiling in the Gluing Engine -/

/-- C7 (amended): for a queue whose fragment chain is nonempty and whose
ECN union is valid, gluing fails with the oversized-datagram error
`-E2BIG` — and hence produces no datagram — exactly when the head
fragment's header length plus the accumulated body length exceeds
65535; the failure is the value handed back to the caller. -/
theorem c7_oversize_iff (qp : Ipq) (hd : FragRecord) (tl : List FragRecord)
    (hfr : qp.fragments = hd :: tl)
    (hecn : ip_frag_ecn_table qp.ecn ≠ 255) :
    ((ip_frag_reasm qp).2 = .error (-E2BIG) ↔ (hd.ihl : Int) + qp.len > 65535) ∧
    (∀ d, (ip_frag_reasm qp).2 = .ok d → ¬ (hd.ihl : Int) + qp.len > 65535) := by
  unfold ip_frag_reasm
  rw [hfr]
  simp only [if_neg hecn]
  by_cases hov : (hd.ihl : Int) + qp.len > 65535
  · rw [if_pos hov]
    refine ⟨⟨fun _ => hov, fun _ => rfl⟩, fun d hd' => ?_⟩
    exact absurd hd' (by simp)
  · rw [if_neg hov]
    refine ⟨⟨fun h => ?_, fun h => absurd h hov⟩, fun d _ => hov⟩
    exact absurd h (by simp [E2BIG, EINVAL])

/-- An oversize queue with a valid ECN union: `20 + 65530 > 65535`. -/
def exOvQ : Ipq :=
  { flags := ⟨true, true, false, false⟩, len := 65530, meat := 65530,
    fragments := [⟨0, 20, [1]⟩], max_size := 21, max_df_size := 0, ecn := 1,
    iif := 0, rid := 0 }

/-- Witness for C7 (amended): the concrete oversize queue fails with
`-E2BIG`. -/
theorem c7_oversize_iff_witness : (ip_frag_reasm exOvQ).2 = .error (-E2BIG) :=
  (c7_oversize_iff exOvQ ⟨0, 20, [1]⟩ [] rfl (by decide)).1.mpr (by decide)

/-- A queue satisfying the gluing preconditions (`FIRST_IN`, `LAST_IN`,
`meat = len`) that is both oversized (`20 + 70000 > 65535`) and carries
the invalid ECN union Not-ECT|CE (the combination the spec itself names
a hard reassembly failure). -/
def exEcnBadQ : Ipq :=
  { flags := ⟨true, true, false, false⟩, len := 70000, meat := 70000,
    fragments := [⟨0, 20, [1]⟩], max_size := 21, max_df_size := 0, ecn := 9,
    iif := 0, rid := 0 }

/-- Counterexample to C7 as stated: a queue satisfying the gluing
preconditions whose total exceeds 65535 does NOT necessarily fail with
the oversized-datagram error — the ECN validation runs first, so this
oversized queue fails with `-EINVAL` instead of `-E2BIG`. -/
theorem c7_counterexample :
    (20 : Int) + exEcnBadQ.len > 65535 ∧
    exEcnBadQ.flags = completionFlags ∧ exEcnBadQ.meat = exEcnBadQ.len ∧
    (ip_frag_reasm exEcnBadQ).2 = .error (-EINVAL) ∧
    ¬ (ip_frag_reasm exEcnBadQ).2 = .error (-E2BIG) := by decide

/-! ### C5 — the too-far heuristic -/

/-- C5 (amended): on an insertion attempt into a live queue (not already
complete, skb not marked `IPSKB_FRAG_COMPLETE`) with an associated peer
and a nonzero configured maximum spread, the peer's counter is
incremented (first conjunct) and the heuristic trips exactly when the
queue already holds a fragment and the counter's delta since the
previous insertion attempt's snapshot (`qp->rid`, not since queue
creation) exceeds the maximum (second conjunct); with no peer or a zero
maximum the heuristic never trips and the counter is not touched (last
two conjuncts). -/
theorem c5_too_far_delta_is_since_last_snapshot (md : Nat) (tk : Bool)
    (qp : Ipq) (skb : Skb) (p : Nat)
    (hc : qp.flags.complete = false) (hfc : skb.frag_complete = false)
    (hmd : md ≠ 0) :
    (ip_frag_queue_insert md tk qp (some p) skb).1 = some (u32 (p + 1)) ∧
    (ip_frag_queue_insert md tk qp (some p) skb).2 =
      (if qp.fragments ≠ [] ∧ u32sub (u32 (p + 1)) qp.rid > md then
         match ip_frag_reinit tk { qp with rid := u32 (p + 1) } with
         | .error c => .fail (ipqKill { qp with rid := u32 (p + 1) }) c
         | .ok qp2 => insertCore qp2 skb
       else insertCore { qp with rid := u32 (p + 1) } skb) ∧
    (∀ qp2 : Ipq, ip_frag_too_far 0 qp2 (some p) = (qp2, some p, false)) ∧
    (∀ qp2 : Ipq, ip_frag_too_far md qp2 none = (qp2, none, false)) := by
  have htf : ip_frag_too_far md qp (some p) =
      ({ qp with rid := u32 (p + 1) }, some (u32 (p + 1)),
       (!qp.fragments.isEmpty) && decide (u32sub (u32 (p + 1)) qp.rid > md)) := by
    simp only [ip_frag_too_far]
    rw [if_neg hmd]
  have hq : ip_frag_queue_insert md tk qp (some p) skb =
      (some (u32 (p + 1)),
       if (!qp.fragments.isEmpty) && decide (u32sub (u32 (p + 1)) qp.rid > md)
       then
         match ip_frag_reinit tk { qp with rid := u32 (p + 1) } with
         | .error c => .fail (ipqKill { qp with rid := u32 (p + 1) }) c
         | .ok qp2 => insertCore qp2 skb
       else insertCore { qp with rid := u32 (p + 1) } skb) := by
    unfold ip_frag_queue_insert
    rw [if_neg (by simp [hc]), hfc]
    simp only [Bool.false_eq_true, if_false, htf]
    rcases hb : (!qp.fragments.isEmpty) && decide (u32sub (u32 (p + 1)) qp.rid > md) with _ | _
    · simp
    · simp only [if_pos]
      cases ip_frag_reinit tk { qp with rid := u32 (p + 1) } <;> rfl
  refine ⟨by rw [hq], ?_, fun qp2 => by simp [ip_frag_too_far], fun qp2 => rfl⟩
  rw [hq]
  have hbp : ((!qp.fragments.isEmpty) && decide (u32sub (u32 (p + 1)) qp.rid > md)) = true ↔
      (qp.fragments ≠ [] ∧ u32sub (u32 (p + 1)) qp.rid > md) := by
    simp [List.isEmpty_iff]
  by_cases hcond : qp.fragments ≠ [] ∧ u32sub (u32 (p + 1)) qp.rid > md
  · rw [if_pos (hbp.mpr hcond), if_pos hcond]
  · rw [if_neg (fun hb => hcond (hbp.mp hb)), if_neg hcond]

/-- Witness for C5 (amended) at a concrete queue, peer and fragment. -/
theorem c5_too_far_witness :
    (ip_frag_queue_insert 2 true exConfQ (some 1) exConfFill).1 = some 2 ∧
    (ip_frag_queue_insert 2 true exConfQ (some 1) exConfFill).2 =
      insertCore { exConfQ with rid := 2 } exConfFill := by
  have h := c5_too_far_delta_is_since_last_snapshot 2 true exConfQ exConfFill 1
    rfl rfl (by decide)
  refine ⟨h.1, ?_⟩
  rw [h.2.1, if_neg (by decide)]
  rfl

/-- The three fragments of the C5 counterexample run (offsets 0, 8, 16). -/
def cfA : Skb := ⟨0, true, false, 0, 20, [0, 0, 0, 0, 0, 0, 0, 0], none, false⟩

/-- Second fragment of the C5 counterexample run. -/
def cfB : Skb := ⟨1, true, false, 0, 20, [0, 0, 0, 0, 0, 0, 0, 0], none, false⟩

/-- Third fragment of the C5 counterexample run. -/
def cfC : Skb := ⟨2, true, false, 0, 20, [0, 0, 0, 0, 0, 0, 0, 0], none, false⟩

/-- Counterexample to C5 as stated: a fresh queue (rid snapshot 0,
peer counter 0 at creation) receives three fragments while the peer
counter reaches 3.  At the third attempt the queue already held
fragments and the counter's delta since the queue was created is
3 - 0 = 3 > max = 2, so the claim says the heuristic trips (the queue
would be reinitialized, keeping at most the newest fragment).  The code
compares against the snapshot of the previous attempt (delta 1), does
not trip, and the queue still holds all three fragments. -/
theorem c5_counterexample :
    (runInserts 2 true ⟨ip4_frag_init 0, some 0⟩ [cfA, cfB, cfC]).peer = some 3 ∧
    (runInserts 2 true ⟨ip4_frag_init 0, some 0⟩ [cfA, cfB]).qp.fragments ≠ [] ∧
    ((3 : Nat) - 0 > 2) ∧
    (runInserts 2 true ⟨ip4_frag_init 0, some 0⟩ [cfA, cfB, cfC]).qp.fragments.length = 3 := by
  decide

/-! ### C3 — the only completion condition -/

/-- C3: after every call, the Gluing Engine is invoked — and a completed
datagram can be produced — exactly when the fragment was actually
inserted (the insertion part returned `ok`) and the resulting queue's
flag word equals exactly `FIRST_IN | LAST_IN` with `received_len` equal
to `total_len`; in every other state the call returns `pending` or a
rejection.  Moreover on the glue path the result is precisely the Gluing
Engine's answer for that post-insertion queue. -/
theorem c3_completion_condition (md : Nat) (tk : Bool) (s : FragState) (skb : Skb) :
    ((∃ r, (ip_frag_queue md tk s skb).2 = .glued r) ↔
      (∃ q', (ip_frag_queue_insert md tk s.qp s.peer skb).2 = .ok q' ∧
         q'.flags = completionFlags ∧ q'.meat = q'.len)) ∧
    (∀ q', (ip_frag_queue_insert md tk s.qp s.peer skb).2 = .ok q' →
       q'.flags = completionFlags → q'.meat = q'.len →
       (ip_frag_queue md tk s skb).2 = .glued (ip_frag_reasm q').2) := by
  unfold ip_frag_queue
  rcases hi : ip_frag_queue_insert md tk s.qp s.peer skb with ⟨p, out⟩
  cases out with
  | fail q c =>
    dsimp only
    refine ⟨⟨fun ⟨r, hr⟩ => absurd hr (by simp), fun ⟨q', hq', _⟩ => ?_⟩, ?_⟩
    · exact absurd hq' (by simp)
    · intro q' hq'
      exact absurd hq' (by simp)
  | ok q =>
    dsimp only
    by_cases hcond : q.flags = completionFlags ∧ q.meat = q.len
    · rw [if_pos hcond]
      exact ⟨⟨fun _ => ⟨q, rfl, hcond⟩, fun _ => ⟨(ip_frag_reasm q).2, rfl⟩⟩,
        fun q' hq' _ _ => by
          simp only [InsertOutcome.ok.injEq] at hq'
          subst hq'
          rfl⟩
    · rw [if_neg hcond]
      refine ⟨⟨fun ⟨r, hr⟩ => absurd hr (by simp), fun ⟨q', hq', h1, h2⟩ => ?_⟩,
        fun q' hq' h1 h2 => ?_⟩
      · simp only [InsertOutcome.ok.injEq] at hq'
        subst hq'
        exact absurd ⟨h1, h2⟩ hcond
      · simp only [InsertOutcome.ok.injEq] at hq'
        subst hq'
        exact absurd ⟨h1, h2⟩ hcond

/-! ### List helpers -/

/-- Any two members of a pairwise-related list are equal or related one
way or the other. -/
theorem rel_or_of_pairwise_mem {α : Type} {R : α → α → Prop} :
    ∀ {l : List α}, l.Pairwise R → ∀ {a b : α}, a ∈ l → b ∈ l →
      a = b ∨ R a b ∨ R b a := by
  intro l hp
  induction hp with
  | nil => intro a b ha _; exact absurd ha (List.not_mem_nil a)
  | cons hx _ ih =>
    intro a b ha hb
    rcases List.mem_cons.mp ha with rfl | ha'
    · rcases List.mem_cons.mp hb with rfl | hb'
      · exact Or.inl rfl
      · exact Or.inr (Or.inl (hx b hb'))
    · rcases List.mem_cons.mp hb with rfl | hb'
      · exact Or.inr (Or.inr (hx a ha'))
      · exact ih ha' hb'

/-- The last element of a list is a member. -/
theorem mem_of_getLast?_eq {α : Type} :
    ∀ {l : List α} {b : α}, l.getLast? = some b → b ∈ l := by
  intro l
  induction l with
  | nil => intro b hb; simp at hb
  | cons x t ih =>
    intro b hb
    cases t with
    | nil =>
      simp only [List.getLast?_singleton, Option.some.injEq] at hb
      subst hb; exact List.mem_singleton_self x
    | cons y t' =>
      rw [List.getLast?_cons_cons] at hb
      exact List.mem_cons_of_mem x (ih hb)

/-- Every member of a pairwise-related list is the last element or
related to it. -/
theorem eq_or_rel_getLast {α : Type} {R : α → α → Prop} :
    ∀ {l : List α}, l.Pairwise R → ∀ {a b : α}, a ∈ l → l.getLast? = some b →
      a = b ∨ R a b := by
  intro l
  induction l with
  | nil => intro _ a b ha _; exact absurd ha (List.not_mem_nil a)
  | cons x t ih =>
    intro hp a b ha hb
    cases t with
    | nil =>
      simp only [List.getLast?_singleton, Option.some.injEq] at hb
      subst hb
      rcases List.mem_cons.mp ha with rfl | ha'
      · exact Or.inl rfl
      · exact absurd ha' (List.not_mem_nil a)
    | cons y t' =>
      rw [List.getLast?_cons_cons] at hb
      rcases List.mem_cons.mp ha with rfl | ha'
      · exact Or.inr ((List.pairwise_cons.mp hp).1 b
          (mem_of_getLast?_eq hb))
      · exact ih (List.pairwise_cons.mp hp).2 ha' hb

/-- A nonempty payload has at least one byte. -/
theorem payload_pos {f : FragRecord} (h : f.payload ≠ []) :
    (1 : Int) ≤ (f.payload.length : Int) := by
  have := List.length_pos.mpr h
  omega

/-- Separation of nonempty records is strict offset order. -/
theorem recLt_of_recSep {a b : FragRecord} (ha : a.payload ≠ [])
    (h : recSep a b) : recLt a b := by
  have := payload_pos ha
  unfold recSep at h
  unfold recLt
  omega

/-- A pairwise-separated list of nonempty records is strictly sorted by
offset: no two records share an offset. -/
theorem pairwise_recLt_of_recSep {l : List FragRecord}
    (hp : l.Pairwise recSep) (hne : ∀ f ∈ l, f.payload ≠ []) :
    l.Pairwise recLt := by
  refine List.Pairwise.imp_of_mem ?_ hp
  intro a b ha _ h
  exact recLt_of_recSep (hne a ha) h

/-- Sum of the byte counts held by a list of records. -/
def sumLens (l : List FragRecord) : Int :=
  (l.map fun f => (f.payload.length : Int)).sum

/-- `sumLens` over an append. -/
theorem sumLens_append (l₁ l₂ : List FragRecord) :
    sumLens (l₁ ++ l₂) = sumLens l₁ + sumLens l₂ := by
  unfold sumLens
  rw [List.map_append, List.sum_append]

/-- The successor overlap loop preserves pairwise separation and
nonemptiness, leaves only records starting at or after `e`, and accounts
every removed byte against `meat`. -/
theorem trimSucc_spec (e : Int) :
    ∀ (l : List FragRecord) (m : Int),
      l.Pairwise recSep → (∀ f ∈ l, f.payload ≠ []) →
      (trimSucc e l m).1.Pairwise recSep ∧
      (∀ f ∈ (trimSucc e l m).1, f.payload ≠ []) ∧
      (∀ f ∈ (trimSucc e l m).1, e ≤ f.offset) ∧
      (trimSucc e l m).2 = m + sumLens (trimSucc e l m).1 - sumLens l := by
  intro l
  induction l with
  | nil =>
    intro m _ _
    have h : trimSucc e [] m = ([], m) := rfl
    rw [h]
    refine ⟨List.Pairwise.nil, by simp, by simp, by simp [sumLens]⟩
  | cons nxt rest ih =>
    intro m hp hne
    have hpr := List.pairwise_cons.mp hp
    by_cases hlt : nxt.offset < e
    · by_cases hsm : e - nxt.offset < (nxt.payload.length : Int)
      · -- partially overlapped head: eat its first bytes and stop
        have heq : trimSucc e (nxt :: rest) m =
            ({ nxt with offset := nxt.offset + (e - nxt.offset),
                        payload := nxt.payload.drop (e - nxt.offset).toNat } :: rest,
             m - (e - nxt.offset)) := by
          simp only [trimSucc]
          rw [if_pos hlt, if_pos hsm]
        rw [heq]
        dsimp only
        have hlen : ((nxt.payload.drop (e - nxt.offset).toNat).length : Int) =
            (nxt.payload.length : Int) - (e - nxt.offset) := by
          rw [List.length_drop]
          omega
        refine ⟨?_, ?_, ?_, ?_⟩
        · refine List.pairwise_cons.mpr ⟨?_, hpr.2⟩
          intro b hb
          have hsep := hpr.1 b hb
          unfold recSep at hsep ⊢
          simp only
          omega
        · intro f hf
          rcases List.mem_cons.mp hf with rfl | hf'
          · simp only
            intro hnil
            have : ((nxt.payload.drop (e - nxt.offset).toNat).length : Int) = 0 := by
              rw [hnil]; simp
            omega
          · exact hne f (List.mem_cons_of_mem nxt hf')
        · intro f hf
          rcases List.mem_cons.mp hf with rfl | hf'
          · simp only
            omega
          · have hsep := hpr.1 f hf'
            have hfy := payload_pos (hne nxt (List.mem_cons_self nxt rest))
            unfold recSep at hsep
            omega
        · simp only [sumLens, List.map_cons, List.sum_cons]
          have : sumLens rest = (rest.map fun f => (f.payload.length : Int)).sum := rfl
          omega
      · -- fully consumed head: drop it and continue
        have heq : trimSucc e (nxt :: rest) m =
            trimSucc e rest (m - (nxt.payload.length : Int)) := by
          simp only [trimSucc]
          rw [if_pos hlt, if_neg hsm]
        rw [heq]
        obtain ⟨h1, h2, h3, h4⟩ := ih (m - (nxt.payload.length : Int)) hpr.2
          (fun f hf => hne f (List.mem_cons_of_mem nxt hf))
        refine ⟨h1, h2, h3, ?_⟩
        rw [h4]
        simp only [sumLens, List.map_cons, List.sum_cons]
        have : sumLens rest = (rest.map fun f => (f.payload.length : Int)).sum := rfl
        omega
    · -- no overlap: loop does not run
      have heq : trimSucc e (nxt :: rest) m = (nxt :: rest, m) := by
        simp only [trimSucc]
        rw [if_neg hlt]
      rw [heq]
      dsimp only
      refine ⟨hp, hne, ?_, by omega⟩
      intro f hf
      rcases List.mem_cons.mp hf with rfl | hf'
      · omega
      · have hsep := hpr.1 f hf'
        have := payload_pos (hne nxt (List.mem_cons_self nxt rest))
        unfold recSep at hsep
        omega

/-- On a pairwise-separated list of nonempty records, the
tail-shortcut search of `findSpot` agrees with the plain
takeWhile/dropWhile split. -/
theorem findSpot_eq_split (l : List FragRecord) (offset : Int)
    (hp : l.Pairwise recSep) (hne : ∀ f ∈ l, f.payload ≠ []) :
    findSpot l offset =
      (l.takeWhile (fun f => decide (f.offset < offset)),
       l.dropWhile (fun f => decide (f.offset < offset))) := by
  unfold findSpot
  cases hlast : l.getLast? with
  | none =>
    have : l = [] := by
      cases l with
      | nil => rfl
      | cons x t => simp [List.getLast?_eq_getLast] at hlast
    subst this
    simp
  | some tl =>
    dsimp only
    by_cases htl : tl.offset < offset
    · rw [if_pos htl]
      have hall : ∀ f ∈ l, f.offset < offset := by
        intro f hf
        rcases eq_or_rel_getLast hp hf hlast with rfl | hsep
        · exact htl
        · have := payload_pos (hne f hf)
          unfold recSep at hsep
          omega
      have htake : l.takeWhile (fun f => decide (f.offset < offset)) = l :=
        List.takeWhile_eq_self_iff.mpr (fun x hx => decide_eq_true (hall x hx))
      have hdrop : l.dropWhile (fun f => decide (f.offset < offset)) = [] :=
        List.dropWhile_eq_nil_iff.mpr (fun x hx => decide_eq_true (hall x hx))
      rw [htake, hdrop]
    · rw [if_neg htl]

/-- Every record of the dropWhile part starts at or after `offset`
(using sortedness for the records behind the first kept one). -/
theorem dropWhile_ge_offset (offset : Int) :
    ∀ {l : List FragRecord}, l.Pairwise recSep → (∀ f ∈ l, f.payload ≠ []) →
      ∀ f ∈ l.dropWhile (fun g => decide (g.offset < offset)), offset ≤ f.offset := by
  intro l
  induction l with
  | nil => intro _ _ f hf; simp at hf
  | cons x t ih =>
    intro hp hne f hf
    have hpr := List.pairwise_cons.mp hp
    rw [List.dropWhile_cons] at hf
    by_cases hx : x.offset < offset
    · rw [if_pos (decide_eq_true hx)] at hf
      exact ih hpr.2 (fun g hg => hne g (List.mem_cons_of_mem x hg)) f hf
    · rw [if_neg (by simp [hx])] at hf
      rcases List.mem_cons.mp hf with rfl | hf'
      · omega
      · have hsep := hpr.1 f hf'
        have := payload_pos (hne x (List.mem_cons_self x t))
        unfold recSep at hsep
        omega

/-- `sumLens` over a cons. -/
theorem sumLens_cons (f : FragRecord) (l : List FragRecord) :
    sumLens (f :: l) = (f.payload.length : Int) + sumLens l := by
  simp [sumLens]

/-- The size-maxima updates of `linkFragment` do not touch the list
fields: projections of its result. -/
theorem linkFragment_proj (qp : Ipq) (skb : Skb) (e offset1 : Int)
    (bef aft : List FragRecord) (payload1 : List Nat) :
    ((linkFragment qp skb e offset1 bef aft payload1).queue.fragments =
      bef ++ ⟨offset1, skb.ihl, payload1⟩ :: (trimSucc e aft qp.meat).1) ∧
    ((linkFragment qp skb e offset1 bef aft payload1).queue.meat =
      (trimSucc e aft qp.meat).2 + (payload1.length : Int)) ∧
    ((linkFragment qp skb e offset1 bef aft payload1).queue.ecn =
      qp.ecn ||| ip4_frag_ecn skb.tos) ∧
    ((linkFragment qp skb e offset1 bef aft payload1).queue.len = qp.len) ∧
    ((linkFragment qp skb e offset1 bef aft payload1).queue.flags =
      (if offset1 = 0 then { qp.flags with first_in := true } else qp.flags)) ∧
    (∃ q', linkFragment qp skb e offset1 bef aft payload1 = .ok q') := by
  unfold linkFragment
  exact ⟨rfl, rfl, rfl, rfl, rfl, _, rfl⟩

/-- Linking a trimmed fragment `[offset1, e)` preserves the structural
invariant, provided the records in front of it are separated from it and
its payload fills the range exactly. -/
theorem linkFragment_wf (qp : Ipq) (skb : Skb) (e offset1 : Int)
    (bef aft : List FragRecord) (payload1 : List Nat)
    (hwf : WF qp) (hsplit : qp.fragments = bef ++ aft)
    (hb : ∀ b ∈ bef, b.offset + (b.payload.length : Int) ≤ offset1)
    (hlen1 : (payload1.length : Int) = e - offset1)
    (ho1e : offset1 < e) :
    WF (linkFragment qp skb e offset1 bef aft payload1).queue := by
  obtain ⟨hpw, hne, hmeat⟩ := hwf
  rw [hsplit] at hpw hne hmeat
  obtain ⟨hbefpw, haftpw, hcross⟩ := List.pairwise_append.mp hpw
  have hbef_ne : ∀ f ∈ bef, f.payload ≠ [] :=
    fun f hf => hne f (List.mem_append.mpr (Or.inl hf))
  have haft_ne : ∀ f ∈ aft, f.payload ≠ [] :=
    fun f hf => hne f (List.mem_append.mpr (Or.inr hf))
  obtain ⟨hts_pw, hts_ne, hts_ge, hts_meat⟩ :=
    trimSucc_spec e aft qp.meat haftpw haft_ne
  obtain ⟨hfr, hmt, _, _, _, _⟩ :=
    linkFragment_proj qp skb e offset1 bef aft payload1
  have hnew_ne : payload1 ≠ [] := by
    intro hnil
    rw [hnil] at hlen1
    simp at hlen1
    omega
  refine ⟨?_, ?_, ?_⟩
  · rw [hfr]
    refine List.pairwise_append.mpr ⟨hbefpw, ?_, ?_⟩
    · refine List.pairwise_cons.mpr ⟨?_, hts_pw⟩
      intro a ha
      have := hts_ge a ha
      unfold recSep
      simp only
      omega
    · intro b hbm x hx
      have hbsep := hb b hbm
      rcases List.mem_cons.mp hx with rfl | hx'
      · exact hbsep
      · have := hts_ge x hx'
        unfold recSep
        omega
  · rw [hfr]
    intro f hf
    rcases List.mem_append.mp hf with hf' | hf'
    · exact hbef_ne f hf'
    · rcases List.mem_cons.mp hf' with rfl | hf''
      · exact hnew_ne
      · exact hts_ne f hf''
  · rw [hmt, hfr, hts_meat]
    have h1 : sumLens (bef ++ aft) = sumLens bef + sumLens aft :=
      sumLens_append bef aft
    have h2 : sumLens (bef ++ (⟨offset1, skb.ihl, payload1⟩ : FragRecord) ::
        (trimSucc e aft qp.meat).1) =
        sumLens bef + ((payload1.length : Int) +
          sumLens (trimSucc e aft qp.meat).1) := by
      rw [sumLens_append, sumLens_cons]
    unfold WF at *
    unfold sumLens at h1 h2 ⊢
    rw [h2]
    unfold sumLens at hts_meat
    omega

/-- A list with no last element is empty. -/
theorem getLast?_none_eq_nil {α : Type} :
    ∀ {l : List α}, l.getLast? = none → l = [] := by
  intro l h
  cases l with
  | nil => rfl
  | cons x t => simp [List.getLast?_eq_getLast] at h

/-- `WF` only depends on the fragment list and `meat`. -/
theorem WF_of_fields {a b : Ipq} (hf : a.fragments = b.fragments)
    (hm : a.meat = b.meat) (h : WF b) : WF a := by
  unfold WF at *
  rw [hf, hm]
  exact h

/-- The overlap-resolving core preserves the structural invariant, for
any fragment whose payload reaches at least to `e`. -/
theorem insertCore2_wf (qp : Ipq) (skb : Skb) (offset e : Int)
    (hwf : WF qp) (hoe : offset ≤ e)
    (hup : e ≤ offset + (skb.payload.length : Int)) :
    WF (insertCore2 qp skb offset e).queue := by
  obtain ⟨hpw, hne, hmeat⟩ := hwf
  unfold insertCore2
  by_cases heo : e = offset
  · rw [if_pos heo]
    exact ⟨hpw, hne, hmeat⟩
  · rw [if_neg heo]
    have he : offset < e := lt_of_le_of_ne hoe fun h => heo h.symm
    rw [findSpot_eq_split qp.fragments offset hpw hne]
    dsimp only
    set bef := qp.fragments.takeWhile (fun f => decide (f.offset < offset)) with hbefdef
    set aft := qp.fragments.dropWhile (fun f => decide (f.offset < offset)) with haftdef
    have hsplit : qp.fragments = bef ++ aft :=
      (List.takeWhile_append_dropWhile _ _).symm
    have hbefpw : bef.Pairwise recSep := by
      rw [hsplit] at hpw
      exact (List.pairwise_append.mp hpw).1
    have hpwO : qp.fragments.Pairwise recSep := by rw [hsplit]; rwa [hsplit] at hpw
    have htknat : (e - offset).toNat ≤ skb.payload.length := by omega
    have hp0 : ((skb.payload.take (e - offset).toNat).length : Int) = e - offset := by
      rw [List.length_take, Nat.min_eq_left htknat]
      omega
    cases hlast : bef.getLast? with
    | none =>
      dsimp only
      refine linkFragment_wf qp skb e offset bef aft _ ⟨hpwO, hne, hmeat⟩ hsplit
        ?_ hp0 he
      intro b hb
      rw [getLast?_none_eq_nil hlast] at hb
      exact absurd hb (List.not_mem_nil b)
    | some p =>
      dsimp only
      have hpmem : p ∈ bef := mem_of_getLast?_eq hlast
      have hpnn : (0 : Int) ≤ (p.payload.length : Int) := Int.ofNat_nonneg _
      have hple : ∀ b ∈ bef,
          b.offset + (b.payload.length : Int) ≤
            p.offset + (p.payload.length : Int) := by
        intro b hb
        rcases eq_or_rel_getLast hbefpw hb hlast with rfl | hsep
        · exact le_refl _
        · unfold recSep at hsep
          omega
      by_cases hi : p.offset + (p.payload.length : Int) - offset > 0
      · rw [if_pos hi]
        by_cases hcol : e ≤ offset + (p.offset + (p.payload.length : Int) - offset)
        · rw [if_pos hcol]
          exact ⟨hpwO, hne, hmeat⟩
        · rw [if_neg hcol]
          refine linkFragment_wf qp skb e
            (offset + (p.offset + (p.payload.length : Int) - offset)) bef aft _
            ⟨hpwO, hne, hmeat⟩ hsplit ?_ ?_ (by omega)
          · intro b hb
            have := hple b hb
            omega
          · rw [List.length_drop]
            omega
      · rw [if_neg hi]
        refine linkFragment_wf qp skb e offset bef aft _ ⟨hpwO, hne, hmeat⟩
          hsplit ?_ hp0 he
        intro b hb
        have := hple b hb
        omega

/-- The length-consistency prelude only mutates `flags`/`len`, so the
whole insertion core preserves the structural invariant. -/
theorem insertCore_wf (qp : Ipq) (skb : Skb) (hwf : WF qp) :
    WF (insertCore qp skb).queue := by
  have hw : (skbStart skb : Int) = 8 * (skb.wireFragOff : Int) := rfl
  have hend : skbEnd skb = skbStart skb + (skb.payload.length : Int) := rfl
  unfold insertCore
  by_cases hmf : skb.mf = false
  · rw [if_pos hmf]
    by_cases hrej : skbEnd skb < qp.len ∨
        (qp.flags.last_in = true ∧ skbEnd skb ≠ qp.len)
    · rw [if_pos hrej]
      exact hwf
    · rw [if_neg hrej]
      refine insertCore2_wf _ skb (skbStart skb) (skbEnd skb) hwf (by omega)
        (by omega)
  · rw [if_neg hmf]
    have h8 : skbStart skb ≤ skbEnd skb - skbEnd skb % 8 ∧
        skbEnd skb - skbEnd skb % 8 ≤ skbStart skb + (skb.payload.length : Int) := by
      omega
    by_cases hgt : skbEnd skb - skbEnd skb % 8 > qp.len
    · rw [if_pos hgt]
      by_cases hli : qp.flags.last_in
      · rw [if_pos hli]
        exact hwf
      · rw [if_neg hli]
        exact insertCore2_wf _ skb _ _ hwf h8.1 h8.2
    · rw [if_neg hgt]
      exact insertCore2_wf _ skb _ _ hwf h8.1 h8.2

/-- `ip_frag_too_far` only ever touches the `rid` snapshot. -/
theorem too_far_preserves (md : Nat) (qp : Ipq) (peer : Option Nat) :
    (ip_frag_too_far md qp peer).1.fragments = qp.fragments ∧
    (ip_frag_too_far md qp peer).1.meat = qp.meat ∧
    (ip_frag_too_far md qp peer).1.flags = qp.flags ∧
    (ip_frag_too_far md qp peer).1.len = qp.len ∧
    (ip_frag_too_far md qp peer).1.ecn = qp.ecn ∧
    (ip_frag_too_far md qp peer).1.max_size = qp.max_size ∧
    (ip_frag_too_far md qp peer).1.max_df_size = qp.max_df_size := by
  unfold ip_frag_too_far
  cases peer with
  | none => exact ⟨rfl, rfl, rfl, rfl, rfl, rfl, rfl⟩
  | some p =>
    dsimp only
    split
    · exact ⟨rfl, rfl, rfl, rfl, rfl, rfl, rfl⟩
    · exact ⟨rfl, rfl, rfl, rfl, rfl, rfl, rfl⟩

/-! ### C4 — the structural queue invariant -/

/-- The full insertion step (too-far prelude, possible
reinitialization, length checks, predecessor trim, successor overlap
loop) preserves the structural invariant, whatever the outcome. -/
theorem queue_insert_wf (md : Nat) (tk : Bool) (qp : Ipq)
    (peer : Option Nat) (skb : Skb) (hwf : WF qp) :
    WF ((ip_frag_queue_insert md tk qp peer skb).2.queue) := by
    unfold ip_frag_queue_insert
    by_cases hc : qp.flags.complete
    · rw [if_pos hc]
      exact hwf
    · rw [if_neg hc]
      dsimp only
      rcases htf : (if skb.frag_complete then (qp, peer, false)
                    else ip_frag_too_far md qp peer) with ⟨qp1, peer1, far⟩
      have hqp1 : qp1.fragments = qp.fragments ∧ qp1.meat = qp.meat := by
        rcases hfc : skb.frag_complete with _ | _
        · rw [hfc] at htf
          simp only [Bool.false_eq_true, if_false] at htf
          have h := too_far_preserves md qp peer
          rw [htf] at h
          exact ⟨h.1, h.2.1⟩
        · rw [hfc] at htf
          simp only [if_true] at htf
          injection htf with h1 h2
          rw [← h1]
          exact ⟨rfl, rfl⟩
      have hwf1 : WF qp1 := WF_of_fields hqp1.1 hqp1.2 hwf
      dsimp only
      cases far with
      | false => exact insertCore_wf qp1 skb hwf1
      | true =>
        cases tk with
        | false =>
          have : ip_frag_reinit false qp1 = .error (-ETIMEDOUT) := rfl
          rw [this]
          exact WF_of_fields rfl rfl hwf1
        | true =>
          have : ip_frag_reinit true qp1 =
              .ok { qp1 with flags := ⟨false, false, false, false⟩, len := 0,
                             meat := 0, fragments := [], iif := 0, ecn := 0 } := rfl
          rw [this]
          refine insertCore_wf _ skb ?_
          refine ⟨List.Pairwise.nil, ?_, ?_⟩
          · intro f hf
            exact absurd hf (List.not_mem_nil f)
          · simp

/-- C4: every insertion (through the too-far prelude, a possible
reinitialization, the length checks, the predecessor trim and the
successor overlap loop) preserves the queue's structural invariant:
the fragment list stays pairwise separated with nonempty records —
hence strictly sorted by offset with no duplicate offsets — and
`received_len` equals the sum of the held, pairwise non-overlapping
byte ranges; this holds for the post-insertion queue of accepted
fragments and for the queue left behind by every rejection. -/
theorem c4_insertion_invariant (md : Nat) (tk : Bool) (qp : Ipq)
    (peer : Option Nat) (skb : Skb) (hwf : WF qp) :
    WF ((ip_frag_queue_insert md tk qp peer skb).2.queue) ∧
    ((ip_frag_queue_insert md tk qp peer skb).2.queue).fragments.Pairwise recLt := by
  have main := queue_insert_wf md tk qp peer skb hwf
  exact ⟨main, pairwise_recLt_of_recSep main.1 main.2.1⟩

/-- Witness for C4 at a concrete queue and fragment. -/
theorem c4_insertion_invariant_witness :
    WF ((ip_frag_queue_insert 64 true exConfQ none exConfFill).2.queue) ∧
    ((ip_frag_queue_insert 64 true exConfQ none exConfFill).2.queue).fragments.Pairwise recLt :=
  c4_insertion_invariant 64 true exConfQ none exConfFill (by decide)

/-- The byte range end a fragment effectively occupies after the
8-byte truncation applied to non-final fragments. -/
def effEnd (f : Skb) : Int :=
  if f.mf then skbEnd f - skbEnd f % 8 else skbEnd f

/-- On a sorted separated list, a record starting before `offset` lands
in the takeWhile part of the split. -/
theorem mem_takeWhile_of_sorted (offset : Int) :
    ∀ {l : List FragRecord}, l.Pairwise recSep → (∀ f ∈ l, f.payload ≠ []) →
      ∀ {C : FragRecord}, C ∈ l → C.offset < offset →
      C ∈ l.takeWhile (fun f => decide (f.offset < offset)) := by
  intro l
  induction l with
  | nil => intro _ _ C hC _; exact absurd hC (List.not_mem_nil C)
  | cons x t ih =>
    intro hp hne C hC hCo
    have hpr := List.pairwise_cons.mp hp
    rw [List.takeWhile_cons]
    rcases List.mem_cons.mp hC with rfl | hCt
    · rw [if_pos (decide_eq_true hCo)]
      exact List.mem_cons_self C _
    · have hxC : recSep x C := hpr.1 C hCt
      have hxne := payload_pos (hne x (List.mem_cons_self x t))
      have hxo : x.offset < offset := by
        unfold recSep at hxC
        omega
      rw [if_pos (decide_eq_true hxo)]
      exact List.mem_cons_of_mem x
        (ih hpr.2 (fun f hf => hne f (List.mem_cons_of_mem x hf)) hCt hCo)

/-- A fragment whose effective range `[offset, e)` lies inside an
already-held record leaves `meat` unchanged: either the predecessor
trim collapses it to a reject, or the successor loop removes exactly as
many bytes as the new record contributes. -/
theorem insertCore2_contained_meat (qp : Ipq) (skb : Skb) (offset e : Int)
    (hwf : WF qp) (hoe : offset ≤ e)
    (hup : e ≤ offset + (skb.payload.length : Int))
    (C : FragRecord) (hCmem : C ∈ qp.fragments)
    (hc1 : C.offset ≤ offset) (hc2 : e ≤ C.offset + (C.payload.length : Int)) :
    (insertCore2 qp skb offset e).queue.meat = qp.meat := by
  obtain ⟨hpw, hne, hmeat⟩ := hwf
  unfold insertCore2
  by_cases heo : e = offset
  · rw [if_pos heo]
    rfl
  · rw [if_neg heo]
    have he : offset < e := lt_of_le_of_ne hoe fun h => heo h.symm
    rw [findSpot_eq_split qp.fragments offset hpw hne]
    dsimp only
    set bef := qp.fragments.takeWhile (fun f => decide (f.offset < offset)) with hbefdef
    set aft := qp.fragments.dropWhile (fun f => decide (f.offset < offset)) with haftdef
    have hsplit : qp.fragments = bef ++ aft :=
      (List.takeWhile_append_dropWhile _ _).symm
    have hpwS : (bef ++ aft).Pairwise recSep := by rw [← hsplit]; exact hpw
    have hbefpw := (List.pairwise_append.mp hpwS).1
    have haftpw := (List.pairwise_append.mp hpwS).2.1
    have hbef_lt : ∀ b ∈ bef, b.offset < offset := by
      intro b hb
      rw [hbefdef] at hb
      have hpb := List.mem_takeWhile_imp hb
      simpa using hpb
    have hCnn : (0 : Int) ≤ (C.payload.length : Int) := Int.ofNat_nonneg _
    have htknat : (e - offset).toNat ≤ skb.payload.length := by omega
    have hp0 : ((skb.payload.take (e - offset).toNat).length : Int) = e - offset := by
      rw [List.length_take, Nat.min_eq_left htknat]
      omega
    rcases lt_or_eq_of_le hc1 with hClt | hCeq
    · -- the container starts strictly before: the new range collapses
      -- against the predecessor and the fragment is rejected
      have hCbef : C ∈ bef := mem_takeWhile_of_sorted offset hpw hne hCmem hClt
      rcases hlast : bef.getLast? with _ | p
      · rw [getLast?_none_eq_nil hlast] at hCbef
        exact absurd hCbef (List.not_mem_nil C)
      · dsimp only
        have hpC : p = C := by
          rcases eq_or_rel_getLast hbefpw hCbef hlast with h | hsep
          · exact h.symm
          · have hpbef : p ∈ bef := mem_of_getLast?_eq hlast
            have := hbef_lt p hpbef
            unfold recSep at hsep
            omega
        subst hpC
        rw [if_pos (by omega), if_pos (by omega)]
        rfl
    · -- the container starts exactly at offset: it is the first
      -- successor; its head is eaten or it is replaced byte-for-byte
      have hCaft : C ∈ aft := by
        rcases List.mem_append.mp (hsplit ▸ hCmem) with h | h
        · have := hbef_lt C h
          omega
        · exact h
      obtain ⟨t, haftC⟩ : ∃ t, aft = C :: t := by
        cases haft2 : aft with
        | nil =>
          rw [haft2] at hCaft
          exact absurd hCaft (List.not_mem_nil C)
        | cons hd t =>
          rw [haft2] at hCaft
          rcases List.mem_cons.mp hCaft with rfl | hCt
          · exact ⟨t, rfl⟩
          · exfalso
            have hh_ge : offset ≤ hd.offset :=
              dropWhile_ge_offset offset hpw hne hd
                (by rw [← haftdef, haft2]; exact List.mem_cons_self hd t)
            have hsep : recSep hd C := by
              rw [haft2] at haftpw
              exact (List.pairwise_cons.mp haftpw).1 C hCt
            have hhne := hne hd (by
              rw [hsplit, haft2]
              exact List.mem_append.mpr (Or.inr (List.mem_cons_self hd t)))
            have := payload_pos hhne
            unfold recSep at hsep
            omega
      have hCe : C.offset = offset := hCeq
      have hfinal : (linkFragment qp skb e offset bef aft
          (skb.payload.take (e - offset).toNat)).queue.meat = qp.meat := by
        obtain ⟨_, hmt, _, _, _, _⟩ := linkFragment_proj qp skb e offset bef aft
          (skb.payload.take (e - offset).toNat)
        rw [hmt, haftC]
        by_cases hsmall : e - C.offset < (C.payload.length : Int)
        · have heq : trimSucc e (C :: t) qp.meat =
              ({ C with offset := C.offset + (e - C.offset),
                        payload := C.payload.drop (e - C.offset).toNat } :: t,
               qp.meat - (e - C.offset)) := by
            simp only [trimSucc]
            rw [if_pos (by omega), if_pos hsmall]
          rw [heq]
          dsimp only
          omega
        · have hee : e = C.offset + (C.payload.length : Int) := by omega
          have heq : trimSucc e (C :: t) qp.meat =
              trimSucc e t (qp.meat - (C.payload.length : Int)) := by
            simp only [trimSucc]
            rw [if_pos (by omega), if_neg hsmall]
          have heq2 : trimSucc e t (qp.meat - (C.payload.length : Int)) =
              (t, qp.meat - (C.payload.length : Int)) := by
            cases t with
            | nil => rfl
            | cons x t' =>
              have hsep : recSep C x := by
                rw [haftC] at haftpw
                exact (List.pairwise_cons.mp haftpw).1 x (List.mem_cons_self x t')
              unfold recSep at hsep
              simp only [trimSucc]
              rw [if_neg (by omega)]
          rw [heq, heq2]
          dsimp only
          omega
      rcases hlast : bef.getLast? with _ | p
      · dsimp only
        exact hfinal
      · dsimp only
        have hpbef := mem_of_getLast?_eq hlast
        have hpo : p.offset < offset := hbef_lt p hpbef
        have hpmem : p ∈ qp.fragments := by
          rw [hsplit]
          exact List.mem_append.mpr (Or.inl hpbef)
        have hpe : p.offset + (p.payload.length : Int) ≤ offset := by
          rcases rel_or_of_pairwise_mem hpw hpmem hCmem with h | hsep | hsep
          · rw [h] at hpo
            omega
          · unfold recSep at hsep
            omega
          · unfold recSep at hsep
            omega
        rw [if_neg (by omega)]
        exact hfinal

/-! ### C8 — fully contained fragments are absorbed -/

/-- C8: inserting a fragment whose effective byte range lies fully
inside a range already held by a well-formed live queue leaves
`received_len` unchanged (whether the duplicate is collapsed against the
predecessor and rejected, or replaces the duplicated bytes), and the
fragment list afterwards has no two records at the same offset and still
satisfies the structural invariant. -/
theorem c8_contained_fragment_absorbed (md : Nat) (tk : Bool) (qp : Ipq)
    (skb : Skb) (hwf : WF qp) (hcom : qp.flags.complete = false)
    (hcont : ∃ C ∈ qp.fragments, C.offset ≤ skbStart skb ∧
       effEnd skb ≤ C.offset + (C.payload.length : Int)) :
    ((ip_frag_queue_insert md tk qp none skb).2.queue).meat = qp.meat ∧
    ((ip_frag_queue_insert md tk qp none skb).2.queue).fragments.Pairwise recLt ∧
    WF ((ip_frag_queue_insert md tk qp none skb).2.queue) := by
  rw [insert_no_peer md tk qp skb hcom]
  obtain ⟨C, hCmem, hc1, hc2⟩ := hcont
  have hwfr := insertCore_wf qp skb hwf
  refine ⟨?_, pairwise_recLt_of_recSep hwfr.1 hwfr.2.1, hwfr⟩
  unfold insertCore
  by_cases hmf : skb.mf = false
  · rw [if_pos hmf]
    have heff : effEnd skb = skbEnd skb := by
      unfold effEnd
      rw [hmf]
      simp
    by_cases hrej : skbEnd skb < qp.len ∨
        (qp.flags.last_in = true ∧ skbEnd skb ≠ qp.len)
    · rw [if_pos hrej]
      rfl
    · rw [if_neg hrej]
      refine insertCore2_contained_meat _ skb (skbStart skb) (skbEnd skb) hwf
        (by unfold skbEnd; omega) (by unfold skbEnd; omega) C hCmem hc1 ?_
      rw [heff] at hc2
      exact hc2
  · rw [if_neg hmf]
    have hmt : skb.mf = true := by
      cases h : skb.mf
      · exact absurd h hmf
      · rfl
    have heff : effEnd skb = skbEnd skb - skbEnd skb % 8 := by
      unfold effEnd
      rw [hmt]
      simp
    have h8 : skbStart skb ≤ skbEnd skb - skbEnd skb % 8 ∧
        skbEnd skb - skbEnd skb % 8 ≤ skbStart skb + (skb.payload.length : Int) := by
      have hw : skbStart skb = 8 * (skb.wireFragOff : Int) := rfl
      have hend : skbEnd skb = skbStart skb + (skb.payload.length : Int) := rfl
      omega
    rw [heff] at hc2
    by_cases hgt : skbEnd skb - skbEnd skb % 8 > qp.len
    · rw [if_pos hgt]
      by_cases hli : qp.flags.last_in
      · rw [if_pos hli]
        rfl
      · rw [if_neg hli]
        exact insertCore2_contained_meat _ skb _ _ hwf h8.1 h8.2 C hCmem hc1 hc2
    · rw [if_neg hgt]
      exact insertCore2_contained_meat _ skb _ _ hwf h8.1 h8.2 C hCmem hc1 hc2

/-- Witness for C8: a duplicate of the bytes `[8, 16)` already held by
`exConfQ` is absorbed with `meat` unchanged. -/
theorem c8_contained_fragment_absorbed_witness :
    ((ip_frag_queue_insert 64 true exConfQ none
        ⟨1, true, false, 0, 20, [5, 5, 5, 5, 5, 5, 5, 5], none, false⟩).2.queue).meat =
      exConfQ.meat ∧
    ((ip_frag_queue_insert 64 true exConfQ none
        ⟨1, true, false, 0, 20, [5, 5, 5, 5, 5, 5, 5, 5], none, false⟩).2.queue).fragments.Pairwise recLt ∧
    WF ((ip_frag_queue_insert 64 true exConfQ none
        ⟨1, true, false, 0, 20, [5, 5, 5, 5, 5, 5, 5, 5], none, false⟩).2.queue) :=
  c8_contained_fragment_absorbed 64 true exConfQ
    ⟨1, true, false, 0, 20, [5, 5, 5, 5, 5, 5, 5, 5], none, false⟩
    (by decide) rfl ⟨⟨8, 20, [5, 5, 5, 5, 5, 5, 5, 5]⟩, by decide, by decide, by decide⟩

/-! ### Size-maxima bookkeeping (for the DF decision) -/

/-- Linking a non-DF fragment leaves `max_df_size` untouched. -/
theorem linkFragment_maxdf (qp : Ipq) (skb : Skb) (e offset1 : Int)
    (bef aft : List FragRecord) (payload1 : List Nat) (hdf : skb.df = false) :
    (linkFragment qp skb e offset1 bef aft payload1).queue.max_df_size =
      qp.max_df_size := by
  unfold linkFragment
  simp [hdf, InsertOutcome.queue]

/-- After linking a nonempty fragment of legal size, `max_size` is
nonzero (the `u16` store cannot wrap). -/
theorem linkFragment_max_size_pos (qp : Ipq) (skb : Skb) (e offset1 : Int)
    (bef aft : List FragRecord) (payload1 : List Nat)
    (hpl : payload1 ≠ []) (hfs : payload1.length + skb.ihl ≤ 65535) :
    1 ≤ (linkFragment qp skb e offset1 bef aft payload1).queue.max_size := by
  unfold linkFragment
  dsimp only [InsertOutcome.queue]
  have h1 : 1 ≤ payload1.length := List.length_pos.mpr hpl
  split
  · rw [Nat.mod_eq_of_lt (by omega)]
    omega
  · omega

/-- The overlap core leaves `max_df_size` untouched for non-DF
fragments, on every path. -/
theorem insertCore2_maxdf (qp : Ipq) (skb : Skb) (offset e : Int)
    (hdf : skb.df = false) :
    (insertCore2 qp skb offset e).queue.max_df_size = qp.max_df_size := by
  unfold insertCore2
  split
  · rfl
  · dsimp only
    split
    · split
      · split
        · rfl
        · exact linkFragment_maxdf _ _ _ _ _ _ _ hdf
      · exact linkFragment_maxdf _ _ _ _ _ _ _ hdf
    · exact linkFragment_maxdf _ _ _ _ _ _ _ hdf

/-- The insertion core leaves `max_df_size` untouched for non-DF
fragments. -/
theorem insertCore_maxdf (qp : Ipq) (skb : Skb) (hdf : skb.df = false) :
    (insertCore qp skb).queue.max_df_size = qp.max_df_size := by
  unfold insertCore
  by_cases hmf : skb.mf = false
  · rw [if_pos hmf]
    by_cases hrej : skbEnd skb < qp.len ∨
        (qp.flags.last_in = true ∧ skbEnd skb ≠ qp.len)
    · rw [if_pos hrej]
      rfl
    · rw [if_neg hrej]
      exact insertCore2_maxdf _ _ _ _ hdf
  · rw [if_neg hmf]
    by_cases hgt : skbEnd skb - skbEnd skb % 8 > qp.len
    · rw [if_pos hgt]
      by_cases hli : qp.flags.last_in
      · rw [if_pos hli]
        rfl
      · rw [if_neg hli]
        exact insertCore2_maxdf _ _ _ _ hdf
    · rw [if_neg hgt]
      exact insertCore2_maxdf _ _ _ _ hdf

/-- The whole insertion step leaves `max_df_size` untouched for non-DF
fragments. -/
theorem queue_insert_maxdf (md : Nat) (tk : Bool) (qp : Ipq)
    (peer : Option Nat) (skb : Skb) (hdf : skb.df = false) :
    ((ip_frag_queue_insert md tk qp peer skb).2.queue).max_df_size =
      qp.max_df_size := by
  unfold ip_frag_queue_insert
  by_cases hc : qp.flags.complete
  · rw [if_pos hc]
    rfl
  · rw [if_neg hc]
    dsimp only
    rcases htf : (if skb.frag_complete then (qp, peer, false)
                  else ip_frag_too_far md qp peer) with ⟨qp1, peer1, far⟩
    have hqp1 : qp1.max_df_size = qp.max_df_size := by
      rcases hfc : skb.frag_complete with _ | _
      · rw [hfc] at htf
        simp only [Bool.false_eq_true, if_false] at htf
        have h := too_far_preserves md qp peer
        rw [htf] at h
        exact h.2.2.2.2.2.2
      · rw [hfc] at htf
        simp only [if_true] at htf
        injection htf with h1 _
        rw [← h1]
    cases far with
    | false =>
      simp only [Bool.false_eq_true, if_false]
      rw [insertCore_maxdf qp1 skb hdf]
      exact hqp1
    | true =>
      rw [if_pos rfl]
      cases tk with
      | false =>
        have hre : ip_frag_reinit false qp1 = .error (-ETIMEDOUT) := rfl
        rw [hre]
        exact hqp1
      | true =>
        have hre : ip_frag_reinit true qp1 =
            .ok { qp1 with flags := ⟨false, false, false, false⟩, len := 0,
                           meat := 0, fragments := [], iif := 0, ecn := 0 } := rfl
        rw [hre]
        dsimp only
        rw [insertCore_maxdf _ skb hdf]
        exact hqp1

/-- Whenever the overlap core accepts a fragment of legal size into a
well-formed queue, the recorded `max_size` afterwards is nonzero. -/
theorem insertCore2_ok_max_size_pos (qp : Ipq) (skb : Skb) (offset e : Int)
    (hwf : WF qp) (hoe : offset ≤ e)
    (hup : e ≤ offset + (skb.payload.length : Int))
    (hfs : fragsizeOf skb ≤ 65535) :
    ∀ q', insertCore2 qp skb offset e = .ok q' → 1 ≤ q'.max_size := by
  obtain ⟨hpw, hne, _⟩ := hwf
  intro q' hq'
  unfold insertCore2 at hq'
  by_cases heo : e = offset
  · rw [if_pos heo] at hq'
    exact absurd hq' (by simp)
  · rw [if_neg heo] at hq'
    have he : offset < e := lt_of_le_of_ne hoe fun h => heo h.symm
    rw [findSpot_eq_split qp.fragments offset hpw hne] at hq'
    dsimp only at hq'
    have hfsOf : skb.payload.length + skb.ihl ≤ 65535 := hfs
    have htknat : (e - offset).toNat ≤ skb.payload.length := by omega
    have hp0len : (skb.payload.take (e - offset).toNat).length =
        (e - offset).toNat := by
      rw [List.length_take]
      exact Nat.min_eq_left htknat
    have hp0ne : skb.payload.take (e - offset).toNat ≠ [] := by
      refine List.length_pos.mp ?_
      rw [hp0len]
      omega
    have hfrom : ∀ o1 p1, p1.length ≤ skb.payload.length → p1 ≠ [] →
        linkFragment qp skb e o1
          (qp.fragments.takeWhile (fun f => decide (f.offset < offset)))
          (qp.fragments.dropWhile (fun f => decide (f.offset < offset))) p1 = .ok q' →
        1 ≤ q'.max_size := by
      intro o1 p1 hlen hne1 hlk
      have := linkFragment_max_size_pos qp skb e o1
        (qp.fragments.takeWhile (fun f => decide (f.offset < offset)))
        (qp.fragments.dropWhile (fun f => decide (f.offset < offset)))
        p1 hne1 (by omega)
      rw [hlk] at this
      exact this
    cases hlast : (qp.fragments.takeWhile
        (fun f => decide (f.offset < offset))).getLast? with
    | none =>
      rw [hlast] at hq'
      dsimp only at hq'
      exact hfrom offset _ (by rw [hp0len]; omega) hp0ne hq'
    | some p =>
      rw [hlast] at hq'
      dsimp only at hq'
      by_cases hi : p.offset + (p.payload.length : Int) - offset > 0
      · rw [if_pos hi] at hq'
        by_cases hcol : e ≤ offset + (p.offset + (p.payload.length : Int) - offset)
        · rw [if_pos hcol] at hq'
          exact absurd hq' (by simp)
        · rw [if_neg hcol] at hq'
          refine hfrom _ _ ?_ ?_ hq'
          · rw [List.length_drop, hp0len]
            omega
          · refine List.length_pos.mp ?_
            rw [List.length_drop, hp0len]
            omega
      · rw [if_neg hi] at hq'
        exact hfrom offset _ (by rw [hp0len]; omega) hp0ne hq'

/-- Whenever the insertion core accepts a legal-size fragment into a
well-formed queue, `max_size` afterwards is nonzero. -/
theorem insertCore_ok_max_size_pos (qp : Ipq) (skb : Skb) (hwf : WF qp)
    (hfs : fragsizeOf skb ≤ 65535) :
    ∀ q', insertCore qp skb = .ok q' → 1 ≤ q'.max_size := by
  intro q' hq'
  have hw : skbStart skb = 8 * (skb.wireFragOff : Int) := rfl
  have hend : skbEnd skb = skbStart skb + (skb.payload.length : Int) := rfl
  unfold insertCore at hq'
  by_cases hmf : skb.mf = false
  · rw [if_pos hmf] at hq'
    by_cases hrej : skbEnd skb < qp.len ∨
        (qp.flags.last_in = true ∧ skbEnd skb ≠ qp.len)
    · rw [if_pos hrej] at hq'
      exact absurd hq' (by simp)
    · rw [if_neg hrej] at hq'
      exact insertCore2_ok_max_size_pos
        { qp with flags := { qp.flags with last_in := true }, len := skbEnd skb }
        skb (skbStart skb) (skbEnd skb) hwf (by omega) (by omega) hfs q' hq'
  · rw [if_neg hmf] at hq'
    by_cases hgt : skbEnd skb - skbEnd skb % 8 > qp.len
    · rw [if_pos hgt] at hq'
      by_cases hli : qp.flags.last_in
      · rw [if_pos hli] at hq'
        exact absurd hq' (by simp)
      · rw [if_neg hli] at hq'
        exact insertCore2_ok_max_size_pos
          { qp with len := skbEnd skb - skbEnd skb % 8 }
          skb (skbStart skb) (skbEnd skb - skbEnd skb % 8) hwf (by omega)
          (by omega) hfs q' hq'
    · rw [if_neg hgt] at hq'
      exact insertCore2_ok_max_size_pos qp
        skb (skbStart skb) (skbEnd skb - skbEnd skb % 8) hwf (by omega)
        (by omega) hfs q' hq'

/-- Whenever the full insertion step accepts a legal-size fragment into
a well-formed queue, `max_size` afterwards is nonzero. -/
theorem queue_insert_ok_max_size_pos (md : Nat) (tk : Bool) (qp : Ipq)
    (peer : Option Nat) (skb : Skb) (hwf : WF qp)
    (hfs : fragsizeOf skb ≤ 65535) :
    ∀ q', (ip_frag_queue_insert md tk qp peer skb).2 = .ok q' →
      1 ≤ q'.max_size := by
  intro q' hq'
  unfold ip_frag_queue_insert at hq'
  by_cases hc : qp.flags.complete
  · rw [if_pos hc] at hq'
    exact absurd hq' (by simp)
  · rw [if_neg hc] at hq'
    dsimp only at hq'
    rcases htf : (if skb.frag_complete then (qp, peer, false)
                  else ip_frag_too_far md qp peer) with ⟨qp1, peer1, far⟩
    rw [htf] at hq'
    have hwf1 : WF qp1 := by
      rcases hfc : skb.frag_complete with _ | _
      · rw [hfc] at htf
        simp only [Bool.false_eq_true, if_false] at htf
        have h := too_far_preserves md qp peer
        rw [htf] at h
        exact WF_of_fields h.1 h.2.1 hwf
      · rw [hfc] at htf
        simp only [if_true] at htf
        injection htf with h1 _
        rw [← h1]
        exact hwf
    cases far with
    | false =>
      simp only [Bool.false_eq_true, if_false] at hq'
      exact insertCore_ok_max_size_pos qp1 skb hwf1 hfs q' hq'
    | true =>
      rw [if_pos rfl] at hq'
      cases tk with
      | false =>
        have hre : ip_frag_reinit false qp1 = .error (-ETIMEDOUT) := rfl
        rw [hre] at hq'
        exact absurd hq' (by simp)
      | true =>
        have hre : ip_frag_reinit true qp1 =
            .ok { qp1 with flags := ⟨false, false, false, false⟩, len := 0,
                           meat := 0, fragments := [], iif := 0, ecn := 0 } := rfl
        rw [hre] at hq'
        dsimp only at hq'
        refine insertCore_ok_max_size_pos _ skb ?_ hfs q' hq'
        exact ⟨List.Pairwise.nil, fun f hf => absurd hf (List.not_mem_nil f), by simp⟩

/-- `ip_frag_reasm` marks the queue complete and never touches the size
maxima. -/
theorem reasm_state_proj (qp : Ipq) :
    (ip_frag_reasm qp).1.max_df_size = qp.max_df_size ∧
    (ip_frag_reasm qp).1.flags.complete = true := by
  unfold ip_frag_reasm ipqKill
  dsimp only
  cases qp.fragments with
  | nil => exact ⟨rfl, rfl⟩
  | cons hd rest =>
    dsimp only
    split
    · exact ⟨rfl, rfl⟩
    · split
      · exact ⟨rfl, rfl⟩
      · exact ⟨rfl, rfl⟩

/-- A dead queue rejects every fragment untouched. -/
theorem insert_on_complete (md : Nat) (tk : Bool) (qp : Ipq)
    (peer : Option Nat) (skb : Skb) (hc : qp.flags.complete = true) :
    ip_frag_queue_insert md tk qp peer skb = (peer, .fail qp (-ENOENT)) := by
  unfold ip_frag_queue_insert
  rw [if_pos hc]

/-- If the gluing engine succeeds, the DF bit of the datagram reads off
the comparison of the two size maxima. -/
theorem reasm_ok_df (qp : Ipq) :
    ∀ d, (ip_frag_reasm qp).2 = .ok d →
      d.df = decide (qp.max_df_size = qp.max_size) := by
  intro d hd
  unfold ip_frag_reasm at hd
  dsimp only at hd
  cases hfr : qp.fragments with
  | nil =>
    rw [hfr] at hd
    exact absurd hd (by simp)
  | cons hd2 rest =>
    rw [hfr] at hd
    dsimp only at hd
    by_cases hecn : ip_frag_ecn_table qp.ecn = 255
    · rw [if_pos hecn] at hd
      exact absurd hd (by simp)
    · rw [if_neg hecn] at hd
      by_cases hov : (hd2.ihl : Int) + qp.len > 65535
      · rw [if_pos hov] at hd
        exact absurd hd (by simp)
      · rw [if_neg hov] at hd
        simp only [Except.ok.injEq] at hd
        rw [← hd]

/-- One `ip_frag_queue` call is a rejection, a glue, or a pending
report, determined by the insertion outcome and the completion check. -/
theorem ip_frag_queue_cases (md : Nat) (tk : Bool) (s : FragState) (skb : Skb) :
    (∃ q c, (ip_frag_queue_insert md tk s.qp s.peer skb).2 = .fail q c ∧
       ip_frag_queue md tk s skb =
         (⟨q, (ip_frag_queue_insert md tk s.qp s.peer skb).1⟩, .rejected c)) ∨
    (∃ q, (ip_frag_queue_insert md tk s.qp s.peer skb).2 = .ok q ∧
       ((q.flags = completionFlags ∧ q.meat = q.len ∧
          ip_frag_queue md tk s skb =
            (⟨(ip_frag_reasm q).1,
              (ip_frag_queue_insert md tk s.qp s.peer skb).1⟩,
             .glued (ip_frag_reasm q).2)) ∨
        (¬(q.flags = completionFlags ∧ q.meat = q.len) ∧
          ip_frag_queue md tk s skb =
            (⟨q, (ip_frag_queue_insert md tk s.qp s.peer skb).1⟩,
             .pending)))) := by
  unfold ip_frag_queue
  rcases h : ip_frag_queue_insert md tk s.qp s.peer skb with ⟨p, out⟩
  cases out with
  | fail q c => exact Or.inl ⟨q, c, rfl, rfl⟩
  | ok q =>
    refine Or.inr ⟨q, rfl, ?_⟩
    by_cases hc : q.flags = completionFlags ∧ q.meat = q.len
    · exact Or.inl ⟨hc.1, hc.2, by dsimp only; rw [if_pos hc]⟩
    · exact Or.inr ⟨hc, by dsimp only; rw [if_neg hc]⟩

/-- Feeding any number of non-DF fragments of legal size into a queue
whose `max_df_size` is zero can only ever glue datagrams without the DF
bit. -/
theorem run_nondf_glued_df_false (md : Nat) (tk : Bool) :
    ∀ (P : List Skb) (s : FragState),
      (WF s.qp ∨ s.qp.flags.complete = true) → s.qp.max_df_size = 0 →
      (∀ f ∈ P, f.df = false ∧ fragsizeOf f ≤ 65535) →
      ∀ d, FragResult.glued (.ok d) ∈ insertResults md tk s P →
        d.df = false := by
  intro P
  induction P with
  | nil =>
    intro s _ _ _ d hd
    simp [insertResults] at hd
  | cons f rest ih =>
    intro s hwfc hdf0 hP d hd
    have hfdf := (hP f (List.mem_cons_self f rest)).1
    have hffs := (hP f (List.mem_cons_self f rest)).2
    have hres : insertResults md tk s (f :: rest) =
        (ip_frag_queue md tk s f).2 ::
          insertResults md tk (ip_frag_queue md tk s f).1 rest := rfl
    rw [hres] at hd
    have hPrest : ∀ g ∈ rest, g.df = false ∧ fragsizeOf g ≤ 65535 :=
      fun g hg => hP g (List.mem_cons_of_mem f hg)
    have hnotc : ∀ q, (ip_frag_queue_insert md tk s.qp s.peer f).2 = .ok q →
        WF s.qp := by
      intro q hq
      rcases hwfc with h | h
      · exact h
      · rw [insert_on_complete md tk s.qp s.peer f h] at hq
        exact absurd hq (by simp)
    rcases ip_frag_queue_cases md tk s f with
      ⟨q, c, hout, heq⟩ | ⟨q, hout, ⟨_, _, heq⟩ | ⟨_, heq⟩⟩
    · -- rejected: state is the (possibly mutated) queue q
      rw [heq] at hd
      dsimp only at hd
      rcases List.mem_cons.mp hd with hhead | htail
      · exact absurd hhead (by simp)
      · refine ih ⟨q, (ip_frag_queue_insert md tk s.qp s.peer f).1⟩ ?_ ?_
          hPrest d htail
        all_goals dsimp only
        · by_cases hcom : s.qp.flags.complete = true
          · have hco := insert_on_complete md tk s.qp s.peer f hcom
            rw [hco] at hout
            dsimp only at hout
            injection hout with h1 _
            rw [← h1]
            exact Or.inr hcom
          · have hwfq := queue_insert_wf md tk s.qp s.peer f
              (hwfc.resolve_right hcom)
            rw [hout] at hwfq
            dsimp only [InsertOutcome.queue] at hwfq
            exact Or.inl hwfq
        · have h := queue_insert_maxdf md tk s.qp s.peer f hfdf
          rw [hout] at h
          dsimp only [InsertOutcome.queue] at h
          rw [h]
          exact hdf0
    · -- glued: the head may be our datagram; the tail queue is dead
      rw [heq] at hd
      dsimp only at hd
      rcases List.mem_cons.mp hd with hhead | htail
      · have hdd : (ip_frag_reasm q).2 = .ok d := by
          injection hhead with h1
          exact h1.symm
        have hdf := reasm_ok_df q d hdd
        have hq0 : q.max_df_size = 0 := by
          have h := queue_insert_maxdf md tk s.qp s.peer f hfdf
          rw [hout] at h
          dsimp only [InsertOutcome.queue] at h
          rw [h]
          exact hdf0
        have hq1 : 1 ≤ q.max_size :=
          queue_insert_ok_max_size_pos md tk s.qp s.peer f
            (hnotc q hout) hffs q hout
        rw [hdf, hq0]
        simp
        omega
      · refine ih ⟨(ip_frag_reasm q).1,
          (ip_frag_queue_insert md tk s.qp s.peer f).1⟩
          (Or.inr (reasm_state_proj q).2) ?_ hPrest d htail
        dsimp only
        rw [(reasm_state_proj q).1]
        have h := queue_insert_maxdf md tk s.qp s.peer f hfdf
        rw [hout] at h
        dsimp only [InsertOutcome.queue] at h
        rw [h]
        exact hdf0
    · -- pending
      rw [heq] at hd
      dsimp only at hd
      rcases List.mem_cons.mp hd with hhead | htail
      · exact absurd hhead (by simp)
      · refine ih ⟨q, (ip_frag_queue_insert md tk s.qp s.peer f).1⟩ ?_ ?_
          hPrest d htail
        all_goals dsimp only
        · have hwfq := queue_insert_wf md tk s.qp s.peer f (hnotc q hout)
          rw [hout] at hwfq
          dsimp only [InsertOutcome.queue] at hwfq
          exact Or.inl hwfq
        · have h := queue_insert_maxdf md tk s.qp s.peer f hfdf
          rw [hout] at h
          dsimp only [InsertOutcome.queue] at h
          rw [h]
          exact hdf0

/-! ### C6 — the do-not-fragment decision -/

/-- C6: a successfully glued datagram carries the DF bit exactly when
the largest DF-carrying fragment size recorded equals the largest
fragment size recorded (`max_df_size == max_size`); and consequently a
datagram reassembled (from a fresh or any zero-`max_df_size`,
well-formed queue) entirely out of non-DF fragments of legal size never
carries DF. -/
theorem c6_df_decision :
    (∀ qp d, (ip_frag_reasm qp).2 = .ok d →
       (d.df = true ↔ qp.max_df_size = qp.max_size)) ∧
    (∀ (md : Nat) (tk : Bool) (s : FragState) (P : List Skb),
       WF s.qp → s.qp.max_df_size = 0 →
       (∀ f ∈ P, f.df = false ∧ fragsizeOf f ≤ 65535) →
       ∀ d, FragResult.glued (.ok d) ∈ insertResults md tk s P →
         d.df = false) := by
  constructor
  · intro qp d hd
    rw [reasm_ok_df qp d hd]
    simp
  · intro md tk s P hwf h0 hP d hd
    exact run_nondf_glued_df_false md tk P s (Or.inl hwf) h0 hP d hd

/-- Witness for C6: a fresh queue fed two non-DF fragments glues a
datagram without DF. -/
theorem c6_df_decision_witness :
    (⟨20, 36, 0, false, 28,
      [1, 2, 3, 4, 5, 6, 7, 8, 9, 10, 11, 12, 13, 14, 15, 16]⟩ : Datagram).df =
      false :=
  (c6_df_decision).2 64 true ⟨ip4_frag_init 0, none⟩ [exReinitF1, exReinitF2]
    (by decide) rfl (by decide) _ (by decide)

/-! ### C1 machinery: order-independent reassembly of a valid set -/

/-- Largest fragment end seen in a list (0 when empty). -/
def maxEnds (T : List Skb) : Int := T.foldr (fun f m => max (skbEnd f) m) 0

/-- Largest `skb->len + ihl` over a list of fragments. -/
def maxFold (T : List Skb) : Nat := T.foldr (fun f m => max (fragsizeOf f) m) 0

/-- Largest DF-carrying fragment size over a list of fragments. -/
def maxDfFold (T : List Skb) : Nat :=
  T.foldr (fun f m => max (if f.df then fragsizeOf f else 0) m) 0

/-- The records of a fragment set arranged in offset order. -/
def specSorted (S : List Skb) : List FragRecord :=
  (S.map toRecord).insertionSort recLe

/-- The datagram a valid fragment set must reassemble to, determined by
the set alone. -/
def specDatagram (S : List Skb) (total : Int) : Datagram :=
  { ihl := ((specSorted S).headD ⟨0, 0, []⟩).ihl,
    tot_len := ((((specSorted S).headD ⟨0, 0, []⟩).ihl : Nat) : Int) + total,
    ecn := ip_frag_ecn_table (ecnAll S),
    df := decide (maxDfFold S = maxFold S),
    frag_max_size := max (maxDfFold S) (maxFold S),
    body := (specSorted S).flatMap (·.payload) }

/-- `offsetOrderedConcat` is the body of the spec datagram. -/
theorem offsetOrderedConcat_eq_spec (S : List Skb) :
    offsetOrderedConcat S = (specSorted S).flatMap (·.payload) := rfl

/-- State of a queue after the fragments `T` of a valid set have been
inserted, for a queue created from a fragment with TOS `c`. -/
structure RunInv (total : Int) (c : Nat) (T : List Skb) (qp : Ipq) : Prop where
  frag_perm : qp.fragments.Perm (T.map toRecord)
  len_eq : qp.len = (if T.any (fun f => !f.mf) then total else maxEnds T)
  flags_eq : qp.flags =
    ⟨T.any (fun f => decide (skbStart f = 0)), T.any (fun f => !f.mf),
     false, false⟩
  ecn_eq : qp.ecn = ip4_frag_ecn c ||| ecnAll T
  maxs_eq : qp.max_size = maxFold T
  maxdf_eq : qp.max_df_size = maxDfFold T

/-- Folding `max` commutes with hoisting one element out (Int). -/
theorem foldr_max_init_int (g : Skb → Int) :
    ∀ (T : List Skb) (a b : Int),
      T.foldr (fun f m => max (g f) m) (max a b) =
        max a (T.foldr (fun f m => max (g f) m) b) := by
  intro T
  induction T with
  | nil => intro a b; rfl
  | cons y t ih =>
    intro a b
    simp only [List.foldr_cons]
    rw [ih, max_left_comm]

/-- Folding `max` commutes with hoisting one element out (Nat). -/
theorem foldr_max_init_nat (g : Skb → Nat) :
    ∀ (T : List Skb) (a b : Nat),
      T.foldr (fun f m => max (g f) m) (max a b) =
        max a (T.foldr (fun f m => max (g f) m) b) := by
  intro T
  induction T with
  | nil => intro a b; rfl
  | cons y t ih =>
    intro a b
    simp only [List.foldr_cons]
    rw [ih, max_left_comm]

/-- Folding bitwise or commutes with hoisting one element out. -/
theorem foldr_or_init (g : Skb → Nat) :
    ∀ (T : List Skb) (a b : Nat),
      T.foldr (fun f m => g f ||| m) (a ||| b) =
        a ||| T.foldr (fun f m => g f ||| m) b := by
  intro T
  induction T with
  | nil => intro a b; rfl
  | cons y t ih =>
    intro a b
    simp only [List.foldr_cons]
    rw [ih, ← Nat.or_assoc, Nat.or_comm (g y) a, Nat.or_assoc]

/-- `maxEnds` over appending one fragment. -/
theorem maxEnds_append_single (T : List Skb) (x : Skb) :
    maxEnds (T ++ [x]) = max (skbEnd x) (maxEnds T) := by
  unfold maxEnds
  rw [List.foldr_append]
  have h : ([x].foldr (fun f m => max (skbEnd f) m) 0) = max (skbEnd x) 0 := rfl
  rw [h, foldr_max_init_int]

/-- `maxFold` over appending one fragment. -/
theorem maxFold_append_single (T : List Skb) (x : Skb) :
    maxFold (T ++ [x]) = max (fragsizeOf x) (maxFold T) := by
  unfold maxFold
  rw [List.foldr_append]
  have h : ([x].foldr (fun f m => max (fragsizeOf f) m) 0) =
      max (fragsizeOf x) 0 := rfl
  rw [h, foldr_max_init_nat]

/-- `maxDfFold` over appending one fragment. -/
theorem maxDfFold_append_single (T : List Skb) (x : Skb) :
    maxDfFold (T ++ [x]) =
      max (if x.df then fragsizeOf x else 0) (maxDfFold T) := by
  unfold maxDfFold
  rw [List.foldr_append]
  have h : ([x].foldr (fun f m => max (if f.df then fragsizeOf f else 0) m) 0) =
      max (if x.df then fragsizeOf x else 0) 0 := rfl
  rw [h, foldr_max_init_nat (fun f => if f.df then fragsizeOf f else 0)]

/-- `ecnAll` over appending one fragment. -/
theorem ecnAll_append_single (T : List Skb) (x : Skb) :
    ecnAll (T ++ [x]) = ip4_frag_ecn x.tos ||| ecnAll T := by
  unfold ecnAll
  rw [List.foldr_append]
  have h : ([x].foldr (fun f a => ip4_frag_ecn f.tos ||| a) 0) =
      ip4_frag_ecn x.tos ||| 0 := rfl
  rw [h, foldr_or_init (fun f => ip4_frag_ecn f.tos)]

/-- The ECN codepoint of a member is absorbed by the union. -/
theorem ecnAll_absorb (x : Skb) :
    ∀ (S : List Skb), x ∈ S → ip4_frag_ecn x.tos ||| ecnAll S = ecnAll S := by
  intro S
  induction S with
  | nil => intro hx; exact absurd hx (List.not_mem_nil x)
  | cons y t ih =>
    intro hx
    unfold ecnAll
    simp only [List.foldr_cons]
    rcases List.mem_cons.mp hx with rfl | hxt
    · rw [← Nat.or_assoc, Nat.or_self]
    · have iht := ih hxt
      unfold ecnAll at iht
      rw [← Nat.or_assoc, Nat.or_comm (ip4_frag_ecn x.tos) (ip4_frag_ecn y.tos),
        Nat.or_assoc, iht]

/-- Folds by a left-commutative operation are permutation-invariant. -/
theorem foldr_perm_eq {α β : Type} (f : α → β → β)
    (hc : ∀ x y b, f x (f y b) = f y (f x b)) :
    ∀ {l₁ l₂ : List α}, l₁.Perm l₂ → ∀ b, l₁.foldr f b = l₂.foldr f b := by
  intro l₁ l₂ h
  induction h with
  | nil => intro b; rfl
  | cons x _ ih =>
    intro b
    simp only [List.foldr_cons]
    rw [ih]
  | swap x y l =>
    intro b
    simp only [List.foldr_cons]
    rw [hc]
  | trans _ _ ih1 ih2 =>
    intro b
    rw [ih1, ih2]

/-- A fold-max upper bound (Int). -/
theorem maxEnds_le (b : Int) (hb : 0 ≤ b) :
    ∀ (T : List Skb), (∀ f ∈ T, skbEnd f ≤ b) → maxEnds T ≤ b := by
  intro T
  induction T with
  | nil => intro _; exact hb
  | cons y t ih =>
    intro h
    unfold maxEnds
    simp only [List.foldr_cons]
    have h1 := h y (List.mem_cons_self y t)
    have h2 : maxEnds t ≤ b :=
      ih (fun f hf => h f (List.mem_cons_of_mem y hf))
    unfold maxEnds at h2
    omega

/-- Sums of held byte counts are nonnegative. -/
theorem sumLens_nonneg (l : List FragRecord) : 0 ≤ sumLens l := by
  induction l with
  | nil => simp [sumLens]
  | cons f t ih =>
    rw [sumLens_cons]
    omega

/-- The sum of payload lengths of fragments, as held records. -/
theorem sumLens_map_toRecord (T : List Skb) :
    sumLens (T.map toRecord) =
      (T.map fun f => (f.payload.length : Int)).sum := by
  unfold sumLens
  rw [List.map_map]
  rfl

/-- `sumLens` is permutation-invariant. -/
theorem sumLens_perm {l₁ l₂ : List FragRecord} (h : l₁.Perm l₂) :
    sumLens l₁ = sumLens l₂ :=
  List.Perm.sum_eq (h.map _)

/-- Disjointness of two records (either order). -/
def recDisj (a b : FragRecord) : Prop := recSep a b ∨ recSep b a

/-- `recDisj` is symmetric. -/
theorem recDisj_symm : Symmetric recDisj := fun _ _ h => h.symm

/-- `specSorted` is a permutation of the record list. -/
theorem specSorted_perm (S : List Skb) :
    (specSorted S).Perm (S.map toRecord) :=
  List.perm_insertionSort recLe (S.map toRecord)

/-- Every member of `specSorted S` is a record of a member of `S`. -/
theorem specSorted_mem {S : List Skb} {f : FragRecord} (hf : f ∈ specSorted S) :
    ∃ g ∈ S, toRecord g = f :=
  List.mem_map.mp ((specSorted_perm S).subset hf)

/-- The records of a valid set are pairwise disjoint. -/
theorem pairwise_recDisj_of_valid {S : List Skb} {total : Int}
    (hv : ValidSet S total) : (S.map toRecord).Pairwise recDisj := by
  refine List.Pairwise.map toRecord ?_ hv.disjoint
  intro a b hab
  rcases hab with h | h
  · exact Or.inl (by
      unfold recSep toRecord
      simpa [skbEnd] using h)
  · exact Or.inr (by
      unfold recSep toRecord
      simpa [skbEnd] using h)

/-- `specSorted` of a valid set is strictly sorted by offset. -/
theorem specSorted_pairwise_recLt {S : List Skb} {total : Int}
    (hv : ValidSet S total) : (specSorted S).Pairwise recLt := by
  have hle : (specSorted S).Pairwise recLe :=
    List.sorted_insertionSort recLe (S.map toRecord)
  have hdisj : (specSorted S).Pairwise recDisj :=
    ((specSorted_perm S).pairwise_iff (fun h => Or.symm h)).mpr
      (pairwise_recDisj_of_valid hv)
  have hand := hle.and hdisj
  refine List.Pairwise.imp_of_mem ?_ hand
  intro a b ha hb h
  obtain ⟨ga, hgaS, hga⟩ := specSorted_mem ha
  obtain ⟨gb, hgbS, hgb⟩ := specSorted_mem hb
  have hane : a.payload ≠ [] := by
    rw [← hga]
    exact hv.nonempty_payloads ga hgaS
  have hbne : b.payload ≠ [] := by
    rw [← hgb]
    exact hv.nonempty_payloads gb hgbS
  have hpa := payload_pos hane
  have hpb := payload_pos hbne
  rcases h.2 with hs | hs
  · exact recLt_of_recSep hane hs
  · unfold recSep at hs
    unfold recLe at h
    unfold recLt
    omega

/-- A sorted separated list with the records of a valid set is
`specSorted`. -/
theorem fragments_eq_specSorted {S : List Skb} {total : Int}
    (hv : ValidSet S total) (l : List FragRecord)
    (hperm : l.Perm (S.map toRecord)) (hpw : l.Pairwise recSep)
    (hne : ∀ f ∈ l, f.payload ≠ []) : l = specSorted S := by
  refine @List.eq_of_perm_of_sorted FragRecord recLt _ _ _
    (hperm.trans (specSorted_perm S).symm) ?_ ?_
  · exact pairwise_recLt_of_recSep hpw hne
  · exact specSorted_pairwise_recLt hv

/-- The head of `specSorted` for a valid set is the record of the
offset-0 fragment. -/
theorem specSorted_head {S : List Skb} {total : Int} (hv : ValidSet S total) :
    ∃ f₀ ∈ S, skbStart f₀ = 0 ∧
      ∃ tl, specSorted S = toRecord f₀ :: tl := by
  obtain ⟨f₀, hf₀S, hf₀⟩ := hv.has_zero
  have hmem : toRecord f₀ ∈ specSorted S :=
    ((specSorted_perm S).mem_iff).mpr (List.mem_map_of_mem toRecord hf₀S)
  cases hsp : specSorted S with
  | nil =>
    rw [hsp] at hmem
    exact absurd hmem (List.not_mem_nil _)
  | cons hd tl =>
    rw [hsp] at hmem
    rcases List.mem_cons.mp hmem with heq | hmem'
    · exact ⟨f₀, hf₀S, hf₀, tl, by rw [heq]⟩
    · exfalso
      have hpwlt := specSorted_pairwise_recLt hv
      rw [hsp] at hpwlt
      have hlt := (List.pairwise_cons.mp hpwlt).1 _ hmem'
      have hoff0 : (toRecord f₀).offset = 0 := hf₀
      unfold recLt at hlt
      rw [hoff0] at hlt
      have hhd : hd ∈ specSorted S := by
        rw [hsp]
        exact List.mem_cons_self hd tl
      obtain ⟨g, hgS, hg⟩ := specSorted_mem hhd
      have : hd.offset = 8 * (g.wireFragOff : Int) := by
        rw [← hg]
        rfl
      omega

/-- Gluing a queue that holds exactly the records of a valid set (with
the matching ECN union, total length and size maxima) yields the
canonical datagram of the set. -/
theorem reasm_final {S : List Skb} {total : Int} (hv : ValidSet S total)
    (qp : Ipq)
    (hperm : qp.fragments.Perm (S.map toRecord))
    (hpw : qp.fragments.Pairwise recSep)
    (hne : ∀ f ∈ qp.fragments, f.payload ≠ [])
    (hecn : qp.ecn = ecnAll S)
    (hlen : qp.len = total)
    (hmax : qp.max_size = maxFold S)
    (hmaxdf : qp.max_df_size = maxDfFold S) :
    (ip_frag_reasm qp).2 = .ok (specDatagram S total) := by
  have hfr : qp.fragments = specSorted S :=
    fragments_eq_specSorted hv qp.fragments hperm hpw hne
  obtain ⟨f₀, hf₀S, hf₀0, tl, hsp⟩ := specSorted_head hv
  unfold ip_frag_reasm
  dsimp only
  rw [hfr, hsp]
  dsimp only
  rw [hecn, if_neg hv.ecn_ok]
  have hihl : (toRecord f₀).ihl = f₀.ihl := rfl
  have hfit : ((toRecord f₀).ihl : Int) + qp.len ≤ 65535 := by
    rw [hihl, hlen]
    exact hv.head_fits f₀ hf₀S hf₀0
  rw [if_neg (by omega)]
  unfold specDatagram
  rw [hsp]
  dsimp only [List.headD]
  rw [hlen, hmax, hmaxdf]

/-- When the successor loop has nothing to trim, `linkFragment` is a
plain splice. -/
theorem linkFragment_result (qp : Ipq) (x : Skb) (e offset1 : Int)
    (bef aft : List FragRecord) (payload1 : List Nat)
    (hts : trimSucc e aft qp.meat = (aft, qp.meat)) :
    linkFragment qp x e offset1 bef aft payload1 = .ok
      { qp with
        fragments := bef ++ ⟨offset1, x.ihl, payload1⟩ :: aft,
        iif := x.dev.getD qp.iif,
        meat := qp.meat + (payload1.length : Int),
        ecn := qp.ecn ||| ip4_frag_ecn x.tos,
        flags := if offset1 = 0 then { qp.flags with first_in := true }
                 else qp.flags,
        max_size := if payload1.length + x.ihl > qp.max_size
                    then (payload1.length + x.ihl) % 65536 else qp.max_size,
        max_df_size := if x.df && decide (payload1.length + x.ihl > qp.max_df_size)
                       then (payload1.length + x.ihl) % 65536
                       else qp.max_df_size } := by
  unfold linkFragment
  rw [hts]

/-- Inserting a fragment disjoint from everything a well-formed queue
holds triggers no trimming: the overlap core splices the untouched
record into the sorted position. -/
theorem insertCore2_disjoint_result (qp : Ipq) (x : Skb)
    (hwfP : qp.fragments.Pairwise recSep)
    (hneP : ∀ f ∈ qp.fragments, f.payload ≠ [])
    (hxne : x.payload ≠ [])
    (hdisjR : ∀ rec ∈ qp.fragments,
      rec.offset + (rec.payload.length : Int) ≤ skbStart x ∨
      skbEnd x ≤ rec.offset) :
    ∃ bef aft, qp.fragments = bef ++ aft ∧
      insertCore2 qp x (skbStart x) (skbEnd x) = .ok
      { qp with
        fragments := bef ++ toRecord x :: aft,
        iif := x.dev.getD qp.iif,
        meat := qp.meat + (x.payload.length : Int),
        ecn := qp.ecn ||| ip4_frag_ecn x.tos,
        flags := if skbStart x = 0 then { qp.flags with first_in := true }
                 else qp.flags,
        max_size := if fragsizeOf x > qp.max_size
                    then fragsizeOf x % 65536 else qp.max_size,
        max_df_size := if x.df && decide (fragsizeOf x > qp.max_df_size)
                       then fragsizeOf x % 65536 else qp.max_df_size } := by
  have hxlen : 1 ≤ (x.payload.length : Int) := by
    have := List.length_pos.mpr hxne
    omega
  have hoffe : skbStart x < skbEnd x := by
    unfold skbEnd
    omega
  refine ⟨qp.fragments.takeWhile (fun f => decide (f.offset < skbStart x)),
    qp.fragments.dropWhile (fun f => decide (f.offset < skbStart x)),
    (List.takeWhile_append_dropWhile _ _).symm, ?_⟩
  have hp0 : x.payload.take (skbEnd x - skbStart x).toNat = x.payload := by
    have h : (skbEnd x - skbStart x).toNat = x.payload.length := by
      unfold skbEnd
      omega
    rw [h, List.take_length]
  have hts : trimSucc (skbEnd x)
      (qp.fragments.dropWhile (fun f => decide (f.offset < skbStart x)))
      qp.meat =
      (qp.fragments.dropWhile (fun f => decide (f.offset < skbStart x)),
       qp.meat) := by
    cases hdw : qp.fragments.dropWhile (fun f => decide (f.offset < skbStart x)) with
    | nil => rfl
    | cons h t =>
      have hhd : h ∈ qp.fragments.dropWhile
          (fun f => decide (f.offset < skbStart x)) := by
        rw [hdw]
        exact List.mem_cons_self h t
      have hhmem : h ∈ qp.fragments := (List.dropWhile_sublist _).subset hhd
      have hge : skbStart x ≤ h.offset :=
        dropWhile_ge_offset (skbStart x) hwfP hneP h hhd
      have hhne := payload_pos (hneP h hhmem)
      have hend : skbEnd x ≤ h.offset := by
        rcases hdisjR h hhmem with h1 | h1
        · omega
        · exact h1
      simp only [trimSucc]
      rw [if_neg (by omega)]
  have hlink := linkFragment_result qp x (skbEnd x) (skbStart x)
    (qp.fragments.takeWhile (fun f => decide (f.offset < skbStart x)))
    (qp.fragments.dropWhile (fun f => decide (f.offset < skbStart x)))
    x.payload hts
  unfold insertCore2
  rw [if_neg (by omega)]
  rw [findSpot_eq_split qp.fragments (skbStart x) hwfP hneP]
  dsimp only
  cases hlast : (qp.fragments.takeWhile
      (fun f => decide (f.offset < skbStart x))).getLast? with
  | none =>
    dsimp only
    rw [hp0, hlink]
    rfl
  | some p =>
    dsimp only
    have hpbef : p ∈ qp.fragments.takeWhile
        (fun f => decide (f.offset < skbStart x)) := mem_of_getLast?_eq hlast
    have hpo : p.offset < skbStart x := by
      have hpb := List.mem_takeWhile_imp hpbef
      simpa using hpb
    have hpmem : p ∈ qp.fragments := (List.takeWhile_sublist _).subset hpbef
    have hpe : p.offset + (p.payload.length : Int) ≤ skbStart x := by
      rcases hdisjR p hpmem with h1 | h1
      · exact h1
      · omega
    rw [if_neg (by omega)]
    rw [hp0, hlink]
    rfl

/-- Record-range view of `toRecord`. -/
theorem toRecord_range (t : Skb) :
    (toRecord t).offset = skbStart t ∧
    ((toRecord t).payload.length : Int) = skbEnd t - skbStart t := by
  refine ⟨rfl, ?_⟩
  unfold toRecord skbEnd
  dsimp only
  omega

/-- Inserting the next fragment of a valid set into a queue satisfying
the run invariant accepts the fragment and re-establishes the invariant. -/
theorem step_lemma {S : List Skb} {total : Int} (hv : ValidSet S total)
    (T r : List Skb) (x : Skb) (hperm : (T ++ x :: r).Perm S)
    (c : Nat) (qp : Ipq) (inv : RunInv total c T qp) (hwf : WF qp) :
    ∃ qp', insertCore qp x = .ok qp' ∧ RunInv total c (T ++ [x]) qp' ∧
      WF qp' := by
  obtain ⟨hpw, hne, hmeat⟩ := hwf
  have hxS : x ∈ S := hperm.subset (by simp)
  have hxne := hv.nonempty_payloads x hxS
  have hxlen : 1 ≤ (x.payload.length : Int) := by
    have := List.length_pos.mpr hxne
    omega
  have hxw : skbStart x = 8 * (x.wireFragOff : Int) := rfl
  have hxe : skbEnd x = skbStart x + (x.payload.length : Int) := rfl
  have htot0 : 0 ≤ total := by
    have h0 : 0 ≤ (S.map fun f => (f.payload.length : Int)).sum := by
      rw [← sumLens_map_toRecord]
      exact sumLens_nonneg _
    have := hv.covers
    omega
  have hTsub : ∀ t ∈ T, t ∈ S := fun t ht => hperm.subset (by simp [ht])
  have hdisj : (T ++ x :: r).Pairwise
      (fun a b => skbEnd a ≤ skbStart b ∨ skbEnd b ≤ skbStart a) :=
    (hperm.pairwise_iff (fun h => Or.symm h)).mpr hv.disjoint
  have hTdisj : ∀ t ∈ T, skbEnd t ≤ skbStart x ∨ skbEnd x ≤ skbStart t :=
    fun t ht =>
      (List.pairwise_append.mp hdisj).2.2 t ht x (List.mem_cons_self x r)
  have hdisjR : ∀ rec ∈ qp.fragments,
      rec.offset + (rec.payload.length : Int) ≤ skbStart x ∨
      skbEnd x ≤ rec.offset := by
    intro rec hrec
    obtain ⟨t, htT, hteq⟩ := List.mem_map.mp (inv.frag_perm.subset hrec)
    obtain ⟨ho, hl⟩ := toRecord_range t
    rcases hTdisj t htT with h | h
    · left
      rw [← hteq, ho, hl]
      omega
    · right
      rw [← hteq, ho]
      omega
  have hszx : fragsizeOf x ≤ 65535 := hv.sizes_ok x hxS
  -- the overlap core on any flag/len mutation of the queue
  have core : ∀ (fl : FragFlags) (L : Int),
      ∃ qp', insertCore2 { qp with flags := fl, len := L } x
          (skbStart x) (skbEnd x) = .ok qp' ∧
        qp'.fragments.Perm ((T ++ [x]).map toRecord) ∧
        qp'.len = L ∧
        qp'.flags = (if skbStart x = 0 then { fl with first_in := true }
                     else fl) ∧
        qp'.ecn = ip4_frag_ecn c ||| ecnAll (T ++ [x]) ∧
        qp'.max_size = maxFold (T ++ [x]) ∧
        qp'.max_df_size = maxDfFold (T ++ [x]) ∧
        WF qp' := by
    intro fl L
    obtain ⟨bef, aft, hsplit, heq⟩ := insertCore2_disjoint_result
      { qp with flags := fl, len := L } x hpw hne hxne hdisjR
    refine ⟨_, heq, ?_, rfl, rfl, ?_, ?_, ?_, ?_⟩
    · -- the new list is the records of T ++ [x]
      dsimp only
      have h1 : (bef ++ toRecord x :: aft).Perm (toRecord x :: (bef ++ aft)) :=
        List.perm_middle
      have h2 : bef ++ aft = qp.fragments := hsplit.symm
      rw [h2] at h1
      have h3 : (toRecord x :: qp.fragments).Perm
          (toRecord x :: T.map toRecord) := inv.frag_perm.cons (toRecord x)
      have h4 : ((T ++ [x]).map toRecord).Perm (toRecord x :: T.map toRecord) := by
        rw [List.map_append]
        exact List.perm_append_singleton (toRecord x) (T.map toRecord)
      exact (h1.trans h3).trans h4.symm
    · -- ECN union
      dsimp only
      rw [inv.ecn_eq, ecnAll_append_single, Nat.or_assoc,
        Nat.or_comm (ecnAll T) (ip4_frag_ecn x.tos), ← Nat.or_assoc]
    · -- max_size
      dsimp only
      rw [maxFold_append_single]
      by_cases hgt : fragsizeOf x > qp.max_size
      · rw [if_pos hgt, Nat.mod_eq_of_lt (by omega)]
        rw [inv.maxs_eq] at hgt
        omega
      · rw [if_neg hgt, inv.maxs_eq]
        rw [inv.maxs_eq] at hgt
        omega
    · -- max_df_size
      dsimp only
      rw [maxDfFold_append_single]
      cases hdf : x.df with
      | false =>
        simp only [Bool.false_and, Bool.false_eq_true, if_false, if_neg]
        rw [inv.maxdf_eq]
        simp
      | true =>
        simp only [Bool.true_and, if_pos]
        by_cases hgt : fragsizeOf x > qp.max_df_size
        · rw [if_pos (by simpa using hgt), Nat.mod_eq_of_lt (by omega)]
          rw [inv.maxdf_eq] at hgt
          omega
        · rw [if_neg (by simpa using hgt), inv.maxdf_eq]
          rw [inv.maxdf_eq] at hgt
          omega
    · -- well-formedness of the accepted state
      have hwf2 := insertCore2_wf { qp with flags := fl, len := L } x
        (skbStart x) (skbEnd x) ⟨hpw, hne, hmeat⟩ (by omega) (by omega)
      rw [heq] at hwf2
      exact hwf2
  have hanyS0 : ∀ fl0 : Bool,
    True := fun _ => trivial
  by_cases hxmf : x.mf = false
  · -- the final fragment arrives
    have hfin : skbEnd x = total := hv.final_total x hxS hxmf
    have hTnof : T.any (fun f => !f.mf) = false := by
      have hcount : (T ++ x :: r).countP (fun f => !f.mf) = 1 := by
        rw [List.Perm.countP_eq _ hperm]
        exact hv.one_final
      rw [List.countP_append] at hcount
      have hx1 : (x :: r).countP (fun f => !f.mf) =
          r.countP (fun f => !f.mf) + 1 :=
        List.countP_cons_of_pos _ _ (by simp [hxmf])
      have hrge : 0 ≤ r.countP (fun f => !f.mf) := Nat.zero_le _
      have hT0 : T.countP (fun f => !f.mf) = 0 := by omega
      rw [List.any_eq_false]
      intro t ht
      have := (List.countP_eq_zero).mp hT0 t ht
      simpa using this
    have hlenT : qp.len = maxEnds T := by
      rw [inv.len_eq, hTnof]
      simp
    have hmaxle : maxEnds T ≤ total :=
      maxEnds_le total htot0 T (fun t ht => hv.ends_le t (hTsub t ht))
    have hli : qp.flags.last_in = T.any (fun f => !f.mf) := by
      rw [inv.flags_eq]
    obtain ⟨qp', heq, hperm', hlen', hflags', hecn', hmax', hmaxdf', hwf'⟩ :=
      core { qp.flags with last_in := true } (skbEnd x)
    refine ⟨qp', ?_, ?_, hwf'⟩
    · unfold insertCore
      rw [if_pos hxmf, if_neg ?hrej]
      · exact heq
      case hrej =>
        intro hcon
        rcases hcon with h | ⟨h1, _⟩
        · omega
        · rw [hli, hTnof] at h1
          exact absurd h1 (by simp)
    · have hanyM : (T ++ [x]).any (fun f => !f.mf) = true := by
        simp [List.any_append, hxmf]
      refine ⟨hperm', ?_, ?_, hecn', hmax', hmaxdf'⟩
      · rw [hlen', hanyM, hfin]
        simp
      · rw [hflags', inv.flags_eq]
        have hany0 : (T ++ [x]).any (fun f => decide (skbStart f = 0)) =
            (T.any (fun f => decide (skbStart f = 0)) ||
              decide (skbStart x = 0)) := by
          simp [List.any_append]
        by_cases hz : skbStart x = 0
        · rw [if_pos hz, hanyM, hany0, hz]
          simp
        · rw [if_neg hz, hanyM, hany0]
          simp [hz, hTnof]
  · -- a non-final fragment arrives
    have hxmt : x.mf = true := by
      cases h : x.mf
      · exact absurd h hxmf
      · rfl
    have halign : skbEnd x % 8 = 0 := hv.mf_aligned x hxS hxmt
    have hxend_le := hv.ends_le x hxS
    have he1 : skbEnd x - skbEnd x % 8 = skbEnd x := by omega
    have hanyM : (T ++ [x]).any (fun f => !f.mf) = T.any (fun f => !f.mf) := by
      simp [List.any_append, hxmt]
    have hflagsgoal : ∀ qp' : Ipq, qp'.flags =
        (if skbStart x = 0 then { qp.flags with first_in := true }
         else qp.flags) →
        qp'.flags = ⟨(T ++ [x]).any (fun f => decide (skbStart f = 0)),
          (T ++ [x]).any (fun f => !f.mf), false, false⟩ := by
      intro qp' h
      rw [h, inv.flags_eq, hanyM]
      have hany0 : (T ++ [x]).any (fun f => decide (skbStart f = 0)) =
          (T.any (fun f => decide (skbStart f = 0)) ||
            decide (skbStart x = 0)) := by
        simp [List.any_append]
      by_cases hz : skbStart x = 0
      · rw [if_pos hz, hany0, hz]
        simp
      · rw [if_neg hz, hany0]
        simp [hz]
    by_cases hTf : T.any (fun f => !f.mf) = true
    · -- the final fragment already arrived: len is already total
      have hlenT : qp.len = total := by
        rw [inv.len_eq, hTf]
        simp
      obtain ⟨qp', heq, hperm', hlen', hflags', hecn', hmax', hmaxdf', hwf'⟩ :=
        core qp.flags qp.len
      have hqpid : ({ qp with flags := qp.flags, len := qp.len } : Ipq) = qp := rfl
      refine ⟨qp', ?_, ?_, hwf'⟩
      · unfold insertCore
        rw [if_neg (by rw [hxmt]; simp), he1, if_neg (by omega)]
        rw [hqpid] at heq
        exact heq
      · refine ⟨hperm', ?_, hflagsgoal qp' hflags', hecn', hmax', hmaxdf'⟩
        rw [hlen', hanyM, hTf, hlenT]
        simp
    · -- no final fragment yet: len tracks the maximal end
      have hTf' : T.any (fun f => !f.mf) = false := by
        cases h : T.any (fun f => !f.mf)
        · rfl
        · exact absurd h hTf
      have hlenT : qp.len = maxEnds T := by
        rw [inv.len_eq, hTf']
        simp
      have hlgoal : ∀ qp' : Ipq, qp'.len = max (skbEnd x) (maxEnds T) →
          qp'.len = (if (T ++ [x]).any (fun f => !f.mf) then total
                     else maxEnds (T ++ [x])) := by
        intro qp' h
        rw [h, hanyM, hTf', maxEnds_append_single]
        simp
      by_cases hgt : skbEnd x > qp.len
      · obtain ⟨qp', heq, hperm', hlen', hflags', hecn', hmax', hmaxdf', hwf'⟩ :=
          core qp.flags (skbEnd x)
        refine ⟨qp', ?_, ?_, hwf'⟩
        · unfold insertCore
          rw [if_neg (by rw [hxmt]; simp), he1, if_pos hgt,
            if_neg (by rw [inv.flags_eq, hTf']; simp)]
          exact heq
        · refine ⟨hperm', ?_, hflagsgoal qp' hflags', hecn', hmax', hmaxdf'⟩
          refine hlgoal qp' ?_
          rw [hlen']
          rw [hlenT] at hgt
          omega
      · obtain ⟨qp', heq, hperm', hlen', hflags', hecn', hmax', hmaxdf', hwf'⟩ :=
          core qp.flags qp.len
        have hqpid : ({ qp with flags := qp.flags, len := qp.len } : Ipq) = qp := rfl
        refine ⟨qp', ?_, ?_, hwf'⟩
        · unfold insertCore
          rw [if_neg (by rw [hxmt]; simp), he1, if_neg (by omega)]
          rw [hqpid] at heq
          exact heq
        · refine ⟨hperm', ?_, hflagsgoal qp' hflags', hecn', hmax', hmaxdf'⟩
          refine hlgoal qp' ?_
          rw [hlen', hlenT]
          rw [hlenT] at hgt
          omega

/-- The ECN union is permutation-invariant. -/
theorem ecnAll_perm {l₁ l₂ : List Skb} (h : l₁.Perm l₂) :
    ecnAll l₁ = ecnAll l₂ := by
  unfold ecnAll
  exact foldr_perm_eq _ (fun x y b => by
    rw [← Nat.or_assoc, Nat.or_comm (ip4_frag_ecn x.tos) (ip4_frag_ecn y.tos),
      Nat.or_assoc]) h 0

/-- The running maximal fragment size is permutation-invariant. -/
theorem maxFold_perm {l₁ l₂ : List Skb} (h : l₁.Perm l₂) :
    maxFold l₁ = maxFold l₂ := by
  unfold maxFold
  exact foldr_perm_eq (fun f m => max (fragsizeOf f) m)
    (fun x y b => max_left_comm (fragsizeOf x) (fragsizeOf y) b) h 0

/-- The running maximal DF fragment size is permutation-invariant. -/
theorem maxDfFold_perm {l₁ l₂ : List Skb} (h : l₁.Perm l₂) :
    maxDfFold l₁ = maxDfFold l₂ := by
  unfold maxDfFold
  exact foldr_perm_eq (fun f m => max (if f.df then fragsizeOf f else 0) m)
    (fun x y b => max_left_comm (if x.df then fragsizeOf x else 0)
      (if y.df then fragsizeOf y else 0) b) h 0

/-- One step of `insertResults`. -/
theorem insertResults_cons (md : Nat) (tk : Bool) (s : FragState) (f : Skb)
    (rest : List Skb) :
    insertResults md tk s (f :: rest) =
      (ip_frag_queue md tk s f).2 ::
        insertResults md tk (ip_frag_queue md tk s f).1 rest := by
  conv_lhs => simp only [insertResults]

/-- After inserting the members `U` of a valid set with remainder `r`,
the completion test of `ip_frag_queue` succeeds iff nothing remains. -/
theorem completion_classify {S : List Skb} {total : Int} (hv : ValidSet S total)
    (U r : List Skb) (hperm : (U ++ r).Perm S) (c : Nat) (qp : Ipq)
    (inv : RunInv total c U qp) (hwf : WF qp) :
    ((qp.flags = completionFlags ∧ qp.meat = qp.len) ↔ r = []) := by
  have hmeat : qp.meat = (U.map fun f => (f.payload.length : Int)).sum := by
    rw [hwf.2.2]
    have h := (sumLens_perm inv.frag_perm).trans (sumLens_map_toRecord U)
    unfold sumLens at h
    exact h
  have hsplit : (U.map fun f => (f.payload.length : Int)).sum +
      (r.map fun f => (f.payload.length : Int)).sum = total := by
    have h1 : ((U ++ r).map fun f => (f.payload.length : Int)).sum =
        (S.map fun f => (f.payload.length : Int)).sum :=
      List.Perm.sum_eq (hperm.map _)
    rw [List.map_append, List.sum_append] at h1
    rw [h1, hv.covers]
  constructor
  · rintro ⟨hfl, hml⟩
    by_contra hr
    cases hre : r with
    | nil => exact hr hre
    | cons f rest =>
      have hfS : f ∈ S := hperm.subset (by simp [hre])
      have hf1 : 1 ≤ (f.payload.length : Int) := by
        have := List.length_pos.mpr (hv.nonempty_payloads f hfS)
        omega
      have hrest : 0 ≤ (rest.map fun g => (g.payload.length : Int)).sum :=
        List.sum_nonneg (by
          intro a ha
          obtain ⟨g, hg, hga⟩ := List.mem_map.mp ha
          omega)
      have hrpos : 0 < (r.map fun g => (g.payload.length : Int)).sum := by
        rw [hre]
        simp only [List.map_cons, List.sum_cons]
        omega
      have h2 : (⟨U.any (fun f => decide (skbStart f = 0)),
          U.any (fun f => !f.mf), false, false⟩ : FragFlags) =
          completionFlags := inv.flags_eq.symm.trans hfl
      have hlast : U.any (fun f => !f.mf) = true :=
        congrArg FragFlags.last_in h2
      have hlen : qp.len = total := by
        rw [inv.len_eq, hlast]
        simp
      rw [hmeat, hlen] at hml
      omega
  · rintro rfl
    have hUS : U.Perm S := by simpa using hperm
    have hany0 : U.any (fun f => decide (skbStart f = 0)) = true := by
      obtain ⟨f, hfS, hf0⟩ := hv.has_zero
      rw [List.any_eq_true]
      exact ⟨f, hUS.mem_iff.mpr hfS, by simp [hf0]⟩
    have hanyM : U.any (fun f => !f.mf) = true := by
      have hc1 : U.countP (fun f => !f.mf) = 1 := by
        rw [List.Perm.countP_eq _ hUS]
        exact hv.one_final
      have hpos : 0 < U.countP (fun f => !f.mf) := by omega
      obtain ⟨f, hfU, hf⟩ := List.countP_pos_iff.mp hpos
      rw [List.any_eq_true]
      exact ⟨f, hfU, hf⟩
    refine ⟨?_, ?_⟩
    · rw [inv.flags_eq, hany0, hanyM]
      rfl
    · rw [hmeat, inv.len_eq, hanyM]
      have h1 : (U.map fun f => (f.payload.length : Int)).sum =
          (S.map fun f => (f.payload.length : Int)).sum :=
        List.Perm.sum_eq (hUS.map _)
      rw [h1, hv.covers]
      simp

/-- Run induction: feeding the remaining fragments of a valid set into a
queue satisfying the run invariant yields pendings followed by the glued
spec datagram. -/
theorem run_spec {S : List Skb} {total : Int} (hv : ValidSet S total)
    (md : Nat) (tk : Bool) (c : Nat)
    (hc : ip4_frag_ecn c ||| ecnAll S = ecnAll S) :
    ∀ (rest T : List Skb) (qp : Ipq),
      (T ++ rest).Perm S → rest ≠ [] → RunInv total c T qp → WF qp →
      insertResults md tk ⟨qp, none⟩ rest =
        List.replicate (rest.length - 1) FragResult.pending ++
          [FragResult.glued (.ok (specDatagram S total))] := by
  intro rest
  induction rest with
  | nil =>
    intro T qp _ hne
    exact absurd rfl hne
  | cons x rest ih =>
    intro T qp hperm _ inv hwf
    obtain ⟨qp', hins, inv', hwf'⟩ := step_lemma hv T rest x hperm c qp inv hwf
    have hcomp : qp.flags.complete = false := by rw [inv.flags_eq]
    have hstep : ip_frag_queue_insert md tk qp none x = (none, .ok qp') := by
      rw [insert_no_peer md tk qp x hcomp, hins]
    have hcl := completion_classify hv (T ++ [x]) rest
      (by rw [List.append_assoc]; exact hperm) c qp' inv' hwf'
    cases rest with
    | nil =>
      have hcond : qp'.flags = completionFlags ∧ qp'.meat = qp'.len :=
        hcl.mpr rfl
      have hUS : (T ++ [x]).Perm S := by simpa using hperm
      have hespec : (ip_frag_reasm qp').2 = .ok (specDatagram S total) := by
        refine reasm_final hv qp' ?_ hwf'.1 hwf'.2.1 ?_ ?_ ?_ ?_
        · exact inv'.frag_perm.trans (hUS.map toRecord)
        · rw [inv'.ecn_eq, ecnAll_perm hUS, hc]
        · have hc1 : (T ++ [x]).countP (fun f => !f.mf) = 1 := by
            rw [List.Perm.countP_eq _ hUS]
            exact hv.one_final
          have hpos : 0 < (T ++ [x]).countP (fun f => !f.mf) := by omega
          obtain ⟨f, hfU, hf⟩ := List.countP_pos_iff.mp hpos
          have hanyM : (T ++ [x]).any (fun f => !f.mf) = true :=
            List.any_eq_true.mpr ⟨f, hfU, hf⟩
          rw [inv'.len_eq, hanyM]
          simp
        · rw [inv'.maxs_eq, maxFold_perm hUS]
        · rw [inv'.maxdf_eq, maxDfFold_perm hUS]
      have hq : ip_frag_queue md tk ⟨qp, none⟩ x =
          (⟨(ip_frag_reasm qp').1, none⟩,
            FragResult.glued (ip_frag_reasm qp').2) := by
        unfold ip_frag_queue
        dsimp only
        rw [hstep]
        dsimp only
        rw [if_pos hcond]
      rw [insertResults_cons, hq]
      dsimp only
      rw [hespec]
      simp only [insertResults]
      rfl
    | cons y rest2 =>
      have hncond : ¬(qp'.flags = completionFlags ∧ qp'.meat = qp'.len) := by
        intro h
        exact absurd (hcl.mp h) (by simp)
      have hq : ip_frag_queue md tk ⟨qp, none⟩ x = (⟨qp', none⟩,
          FragResult.pending) := by
        unfold ip_frag_queue
        dsimp only
        rw [hstep]
        dsimp only
        rw [if_neg hncond]
      rw [insertResults_cons, hq]
      dsimp only
      rw [ih (T ++ [x]) qp' (by rw [List.append_assoc]; exact hperm)
        (by simp) inv' hwf']
      have hlen2 : (x :: y :: rest2).length - 1 =
          ((y :: rest2).length - 1) + 1 := by simp
      rw [hlen2, List.replicate_succ, List.cons_append]

/-- First fragment of the C1 witness set: bytes [0,8) of a 16-byte body. -/
def w1A : Skb := ⟨0, true, false, 0, 20, [1, 2, 3, 4, 5, 6, 7, 8], none, false⟩

/-- Final fragment of the C1 witness set: bytes [8,16). -/
def w1B : Skb :=
  ⟨1, false, false, 0, 20, [9, 10, 11, 12, 13, 14, 15, 16], none, false⟩

/-- C1: for every valid fragment set covering `[0, total)` exactly once,
feeding the fragments in any arrival order into a fresh queue yields
Pending for every fragment but the last and a glued (Complete) datagram
at the last; the glued datagram is `specDatagram S total`, a function of
the set alone — hence identical for every permutation — and its body is
the concatenation of the fragment payloads in offset order. -/
theorem c1_order_independent_reassembly (md : Nat) (tk : Bool)
    {S : List Skb} {total : Int} (hv : ValidSet S total)
    (p : Skb) (ps : List Skb) (hperm : (p :: ps).Perm S) :
    insertResults md tk ⟨ip4_frag_init p.tos, none⟩ (p :: ps) =
      List.replicate ps.length FragResult.pending ++
        [FragResult.glued (.ok (specDatagram S total))] ∧
    (specDatagram S total).body = offsetOrderedConcat S := by
  refine ⟨?_, (offsetOrderedConcat_eq_spec S).symm⟩
  have hpS : p ∈ S := hperm.subset (List.mem_cons_self p ps)
  have hc : ip4_frag_ecn p.tos ||| ecnAll S = ecnAll S := ecnAll_absorb p S hpS
  have hinv : RunInv total p.tos [] (ip4_frag_init p.tos) := by
    refine ⟨?_, ?_, ?_, ?_, ?_, ?_⟩ <;>
      simp [ip4_frag_init, maxFold, maxDfFold, maxEnds, ecnAll]
  have hwf0 : WF (ip4_frag_init p.tos) := by
    refine ⟨?_, ?_, ?_⟩ <;> simp [ip4_frag_init]
  have h := run_spec hv md tk p.tos hc (p :: ps) [] (ip4_frag_init p.tos)
    (by simpa using hperm) (by simp) hinv hwf0
  simpa using h

/-- C1 witness: the two-fragment set `[w1A, w1B]` is valid for total 16,
and feeding it in the reversed order `[w1B, w1A]` produces one Pending
followed by the glued spec datagram, whose body is the offset-ordered
payload concatenation `[1, …, 16]`. -/
theorem c1_order_independent_reassembly_witness :
    ValidSet [w1A, w1B] 16 ∧
    ([w1B, w1A].Perm [w1A, w1B]) ∧
    (insertResults 0 true ⟨ip4_frag_init w1B.tos, none⟩ [w1B, w1A] =
      List.replicate 1 FragResult.pending ++
        [FragResult.glued (.ok (specDatagram [w1A, w1B] 16))] ∧
    (specDatagram [w1A, w1B] 16).body = offsetOrderedConcat [w1A, w1B]) := by
  have hv : ValidSet [w1A, w1B] 16 := by
    constructor <;> decide
  have hp : [w1B, w1A].Perm [w1A, w1B] := by decide
  exact ⟨hv, hp, c1_order_independent_reassembly 0 true hv w1B [w1A] hp⟩
